import Mathlib

/-!
Shallow embedding of the veloren-translate pipeline stages.

Sources embedded here:
 - `src/apps/rss-digester/src/index.ts` (Ingest: ledger load/save, new-item
   filter, slug/path rule, metadata envelope encoding, batch write + save).
 - `src/apps/html-to-markdown/src/index.ts` (Render-Markdown: bucket check,
   filename regex, envelope decoding with defaults, error swallowing in the
   first variant of the file).
 - `src/apps/batch-translator/src/index.ts` (Translate: unconditional batch
   translation request, error swallowing).
 - `src/unnamed/part_002` (Render-JSON: bucket check, filename regex with
   directory prefix, envelope decoding incl. `data-cover`, rethrow on error).

Strings are modelled as `List Char`.  JavaScript regular expressions used by
the code are fixed patterns; each is embedded as an equivalent executable
matcher, with the derivation from the backtracking semantics documented at
the definition.
-/

namespace Veloren

/-- Character class `[a-z]` of the consumer filename regex. -/
def isLowerAZ (c : Char) : Bool := 'a' ≤ c && c ≤ 'z'

/-- Character class `[a-zA-Z]` of the consumer filename regex. -/
def isAlphaAZ (c : Char) : Bool := ('a' ≤ c && c ≤ 'z') || ('A' ≤ c && c ≤ 'Z')

/-- Character class `[a-zA-Z0-9]` used by the Ingest slug rule. -/
def isAlnumAZ (c : Char) : Bool :=
  ('a' ≤ c && c ≤ 'z') || ('A' ≤ c && c ≤ 'Z') || ('0' ≤ c && c ≤ '9')

/-- The suffix after the last occurrence of `c` (the whole list when `c` is
absent).  Used to model where an unanchored JavaScript regex whose elements
all reject `c` can start matching. -/
def afterLast (c : Char) (s : List Char) : List Char :=
  (s.reverse.takeWhile (fun d => d ≠ c)).reverse

/-- ECMAScript LineTerminator (`\n`, `\r`, U+2028, U+2029): the characters
`.` (without the `s` flag) refuses to match. -/
def isLineTerm (c : Char) : Bool :=
  c = '\n' || c = '\r' || c = Char.ofNat 0x2028 || c = Char.ofNat 0x2029

/-- The suffix after the last line terminator (the whole list when none
occurs): the only region where an unanchored regex all of whose elements
reject line terminators can match. -/
def afterLastLT (s : List Char) : List Char :=
  (s.reverse.takeWhile (fun d => !isLineTerm d)).reverse

/-- Decidable check that a list is free of line terminators. -/
def noLT (s : List Char) : Bool := s.all (fun c => !isLineTerm c)

/-- Split a list at the last occurrence of `c`: returns the part before and
the part after that occurrence, or `none` when `c` is absent. -/
def lastSplit (c : Char) (s : List Char) : Option (List Char × List Char) :=
  if (afterLast c s).length < s.length then
    some (s.take (s.length - (afterLast c s).length - 1), afterLast c s)
  else none

/-- Strip a fixed suffix, or fail. -/
def stripSfx (sfx s : List Char) : Option (List Char) :=
  if s.reverse.take sfx.length = sfx.reverse then some (s.take (s.length - sfx.length))
  else none

/-- The language-tag pattern `[a-z]{2,3}(?:-[a-zA-Z]{2,4})?` of the consumer
regex, matched against the whole candidate.  Backtracking note: the primary
subtag is the maximal run of lowercase letters, since a shorter choice would
leave a lowercase letter where the regex requires `-` or the end. -/
def langOk (l : List Char) : Bool :=
  let p := l.takeWhile isLowerAZ
  let rest := l.drop p.length
  match rest with
  | [] => 2 ≤ p.length && p.length ≤ 3
  | '-' :: r =>
      2 ≤ p.length && p.length ≤ 3 && r.all isAlphaAZ && 2 ≤ r.length && r.length ≤ 4
  | _ => false

/-- Literal tail `_translations.html` required by the consumer regexes. -/
def sufxT : List Char := ('_' :: "translations.html".toList)

/-- Core of both consumer filename regexes, applied to the segment of the
object name where the match can start.  The segment must end with
`_translations.html`; the base is everything before the last `_` preceding
that literal, and the part between must match the language-tag pattern.
This is the greedy `(.*)_(<lang>)_translations\.html$` behaviour: `(.*)` is
maximal, and since the language pattern contains no underscore only the
last `_` before the literal can separate the two groups. -/
def matchCore (t : List Char) : Option (List Char × List Char) :=
  (stripSfx sufxT t).bind fun core =>
    (lastSplit '_' core).bind fun bl =>
      if langOk bl.2 then some bl else none

/-- The Render-Markdown (first variant) filename regex
`/(.*)_([a-z]{2,3}(?:-[a-zA-Z]{2,4})?)_translations\.html$/` applied by
`String.prototype.match`.  `.` does not cross any ECMAScript LineTerminator
(`\n`, `\r`, U+2028, U+2029) and every other element of the pattern rejects
them too, while the trailing `$` pins the match to the end of the name, so
the leftmost viable start is just after the last line terminator. -/
def mdNameMatch (name : List Char) : Option (List Char × List Char) :=
  matchCore (afterLastLT name)

/-- The Render-JSON / second-variant consumer regex
`/(?:.*\/)?(.*)_([a-z]{2,3}(?:-[a-zA-Z]{2,4})?)_translations\.html$/`.
As above the match starts after the last line terminator; the greedy
optional `(?:.*\/)?` then consumes through the last `/` of that segment (no
later element of the pattern can match `/`, and if any backtracked choice
succeeds, the greedy one does too, since the tail of the name is the same
for every choice). -/
def consumerMatch (name : List Char) : Option (List Char × List Char) :=
  matchCore (afterLast '/' (afterLastLT name))

end Veloren

namespace Veloren

/- ### Basic lemmas about the list utilities -/

theorem takeWhile_append_of_all {p : Char → Bool} {xs : List Char} (h : ∀ c ∈ xs, p c = true)
    {y : Char} (hy : p y = false) (ys : List Char) :
    (xs ++ y :: ys).takeWhile p = xs := by
  induction xs with
  | nil => simp [List.takeWhile, hy]
  | cons a as ih =>
      have ha : p a = true := h a (by simp)
      simp only [List.cons_append, List.takeWhile_cons, ha]
      simp [ih (fun c hc => h c (by simp [hc]))]

theorem afterLast_append_last {c : Char} {xs ys : List Char} (h : c ∉ ys) :
    afterLast c (xs ++ c :: ys) = ys := by
  unfold afterLast
  rw [List.reverse_append, List.reverse_cons, List.append_assoc]
  have hall : ∀ d ∈ ys.reverse, (fun d => decide (d ≠ c)) d = true := by
    intro d hd
    simp only [decide_eq_true_eq, ne_eq]
    intro hdc
    exact h (by simpa [hdc] using List.mem_reverse.mp hd)
  rw [List.singleton_append, takeWhile_append_of_all hall (by simp)]
  simp

theorem afterLast_of_not_mem {c : Char} {s : List Char} (h : c ∉ s) :
    afterLast c s = s := by
  unfold afterLast
  rw [List.takeWhile_eq_self_iff.mpr, List.reverse_reverse]
  intro d hd
  simp only [decide_eq_true_eq, ne_eq]
  intro hdc
  exact h (by simpa [hdc] using List.mem_reverse.mp hd)

theorem lastSplit_eq {c : Char} {b l : List Char} (h : c ∉ l) :
    lastSplit c (b ++ c :: l) = some (b, l) := by
  unfold lastSplit
  rw [afterLast_append_last h]
  have hlen : (b ++ c :: l).length = b.length + 1 + l.length := by
    simp [List.length_append, List.length_cons]; omega
  have hlt : l.length < (b ++ c :: l).length := by omega
  simp only [hlt, if_true]
  have htake : (b ++ c :: l).length - l.length - 1 = b.length := by omega
  rw [htake, List.take_left]

theorem stripSfx_append (core : List Char) :
    stripSfx sufxT (core ++ sufxT) = some core := by
  unfold stripSfx
  rw [List.reverse_append]
  have h1 : sufxT.reverse.length = sufxT.length := List.length_reverse _
  rw [List.take_left' h1]
  simp only [if_true]
  have hlen : (core ++ sufxT).length - sufxT.length = core.length := by
    simp [List.length_append]
  rw [hlen, List.take_left]

end Veloren

namespace Veloren

theorem takeWhile_append_all {p : Char → Bool} {xs : List Char} (h : ∀ c ∈ xs, p c = true)
    (ys : List Char) : (xs ++ ys).takeWhile p = xs ++ ys.takeWhile p := by
  induction xs with
  | nil => simp
  | cons a as ih =>
      have ih2 := ih (fun c hc => h c (List.mem_cons_of_mem a hc))
      have ha : p a = true := h a (List.mem_cons_self a as)
      simp [List.takeWhile_cons, ha, ih2]

theorem afterLast_append_right {c : Char} {ys : List Char} (h : c ∉ ys) (xs : List Char) :
    afterLast c (xs ++ ys) = afterLast c xs ++ ys := by
  unfold afterLast
  rw [List.reverse_append]
  have hall : ∀ d ∈ ys.reverse, (fun d => decide (d ≠ c)) d = true := by
    intro d hd
    simp only [decide_eq_true_eq, ne_eq]
    intro hdc
    exact h (by simpa [hdc] using List.mem_reverse.mp hd)
  rw [takeWhile_append_all hall, List.reverse_append, List.reverse_reverse]

theorem afterLast_suffix_decomp (c : Char) (s : List Char) :
    ∃ q, s = q ++ afterLast c s := by
  refine ⟨(s.reverse.dropWhile (fun d => d ≠ c)).reverse, ?_⟩
  unfold afterLast
  rw [← List.reverse_append, List.takeWhile_append_dropWhile, List.reverse_reverse]

theorem noLT_spec {s : List Char} (h : noLT s = true) : ∀ c ∈ s, isLineTerm c = false := by
  intro c hc
  have hb := List.all_eq_true.mp h c hc
  simpa using hb

theorem afterLastLT_append_right {ys : List Char} (h : ∀ c ∈ ys, isLineTerm c = false)
    (xs : List Char) : afterLastLT (xs ++ ys) = afterLastLT xs ++ ys := by
  unfold afterLastLT
  rw [List.reverse_append]
  have hall : ∀ d ∈ ys.reverse, (fun d => !isLineTerm d) d = true := by
    intro d hd
    simp [h d (List.mem_reverse.mp hd)]
  rw [takeWhile_append_all hall, List.reverse_append, List.reverse_reverse]

theorem afterLastLT_of_noLT {s : List Char} (h : ∀ c ∈ s, isLineTerm c = false) :
    afterLastLT s = s := by
  unfold afterLastLT
  rw [List.takeWhile_eq_self_iff.mpr, List.reverse_reverse]
  intro d hd
  simp [h d (List.mem_reverse.mp hd)]

theorem afterLastLT_suffix_decomp (s : List Char) : ∃ q, s = q ++ afterLastLT s := by
  refine ⟨(s.reverse.dropWhile (fun d => !isLineTerm d)).reverse, ?_⟩
  unfold afterLastLT
  rw [← List.reverse_append, List.takeWhile_append_dropWhile, List.reverse_reverse]

theorem sufxT_noLT : ∀ c ∈ sufxT, isLineTerm c = false := by
  intro c hc
  have hall : sufxT.all (fun c => !isLineTerm c) = true := by decide
  simpa using List.all_eq_true.mp hall c hc

theorem stripSfx_sound {sfx s core : List Char} (h : stripSfx sfx s = some core) :
    s = core ++ sfx := by
  unfold stripSfx at h
  by_cases hc : s.reverse.take sfx.length = sfx.reverse
  · simp only [hc, if_true, Option.some.injEq] at h
    have hs : s = (s.reverse.drop sfx.length).reverse ++ sfx := by
      have hdecomp : s.reverse = sfx.reverse ++ s.reverse.drop sfx.length := by
        conv_lhs => rw [← List.take_append_drop sfx.length s.reverse, hc]
      have h2 := congrArg List.reverse hdecomp
      simpa [List.reverse_append] using h2
    have hcq : core = (s.reverse.drop sfx.length).reverse := by
      rw [← h]
      conv_lhs => rw [hs]
      exact List.take_left' (by simp [List.length_append])
    rw [hcq]
    exact hs
  · simp [hc] at h

theorem dropWhile_head_not {p : Char → Bool} :
    ∀ (l : List Char) {d : Char} {w : List Char}, l.dropWhile p = d :: w → p d = false := by
  intro l
  induction l with
  | nil => intro d w h; simp at h
  | cons a as ih =>
      intro d w h
      by_cases hpa : p a = true
      · rw [List.dropWhile_cons_of_pos hpa] at h
        exact ih h
      · rw [List.dropWhile_cons_of_neg (by simpa using hpa)] at h
        cases h
        simpa using hpa

theorem lastSplit_sound {c : Char} {s b l : List Char} (h : lastSplit c s = some (b, l)) :
    s = b ++ c :: l ∧ c ∉ l := by
  unfold lastSplit at h
  by_cases hlt : (afterLast c s).length < s.length
  · simp only [hlt, if_true, Option.some.injEq, Prod.mk.injEq] at h
    obtain ⟨hb, hl⟩ := h
    have hsplit : s.reverse = (afterLast c s).reverse ++ s.reverse.dropWhile (fun d => decide (d ≠ c)) := by
      conv_lhs => rw [← List.takeWhile_append_dropWhile (p := fun d => decide (d ≠ c)) (l := s.reverse)]
      unfold afterLast
      rw [List.reverse_reverse]
    have hdwne : s.reverse.dropWhile (fun d => decide (d ≠ c)) ≠ [] := by
      intro hnil
      rw [hnil, List.append_nil] at hsplit
      have hle := congrArg List.length hsplit
      simp only [List.length_reverse] at hle
      omega
    obtain ⟨d, w, hw⟩ := List.exists_cons_of_ne_nil hdwne
    have hd : d = c := by
      have hnot := dropWhile_head_not _ hw
      simpa using hnot
    rw [hd] at hw
    have hs : s = w.reverse ++ c :: afterLast c s := by
      have h2 := congrArg List.reverse hsplit
      rw [List.reverse_reverse, hw] at h2
      simpa [List.reverse_append, List.reverse_cons, List.append_assoc] using h2
    have hnotmem : c ∉ afterLast c s := by
      intro hmem
      have hmem2 : c ∈ s.reverse.takeWhile (fun e => decide (e ≠ c)) := by
        unfold afterLast at hmem
        exact List.mem_reverse.mp hmem
      have := List.mem_takeWhile_imp hmem2
      simp at this
    have hslen := congrArg List.length hs
    simp only [List.length_append, List.length_cons, List.length_reverse] at hslen
    refine ⟨?_, by rw [← hl]; exact hnotmem⟩
    rw [← hb, ← hl]
    have hlenw : s.length - (afterLast c s).length - 1 = w.reverse.length := by
      rw [List.length_reverse]
      omega
    rw [hlenw]
    generalize hgen : afterLast c s = t at hs ⊢
    conv_rhs => rw [hs]
    rw [List.take_left]
    exact hs
  · simp [hlt] at h

theorem drop_takeWhile_length (p : Char → Bool) (l : List Char) :
    l.drop (l.takeWhile p).length = l.dropWhile p := by
  induction l with
  | nil => simp
  | cons a as ih =>
      by_cases hpa : p a = true
      · simp [List.takeWhile_cons_of_pos hpa, List.dropWhile_cons_of_pos hpa, ih]
      · simp [List.takeWhile_cons_of_neg (by simpa using hpa),
          List.dropWhile_cons_of_neg (by simpa using hpa)]

theorem langOk_not_mem {l : List Char} (h : langOk l = true) {c : Char}
    (h1 : isLowerAZ c = false) (h2 : isAlphaAZ c = false) (h3 : c ≠ '-') : c ∉ l := by
  intro hmem
  unfold langOk at h
  simp only [drop_takeWhile_length] at h
  have hdec := List.takeWhile_append_dropWhile (p := isLowerAZ) (l := l)
  rw [← hdec] at hmem
  split at h
  · rename_i heq
    rw [heq, List.append_nil] at hmem
    have := List.mem_takeWhile_imp hmem
    rw [h1] at this
    exact absurd this (by simp)
  · rename_i r heq
    rw [heq] at hmem
    simp only [Bool.and_eq_true] at h
    rcases List.mem_append.mp hmem with hm | hm
    · have := List.mem_takeWhile_imp hm
      rw [h1] at this
      exact absurd this (by simp)
    · rcases List.mem_cons.mp hm with rfl | hm2
      · exact h3 rfl
      · have hall : r.all isAlphaAZ = true := by tauto
        have := List.all_eq_true.mp hall c hm2
        rw [h2] at this
        exact absurd this (by simp)
  · exact absurd h (by simp)

theorem langOk_noLT {l : List Char} (h : langOk l = true) :
    ∀ c ∈ l, isLineTerm c = false := by
  intro c hc
  by_contra hne
  have ht : isLineTerm c = true := by
    revert hne; cases isLineTerm c <;> simp
  have hcases : c = '\n' ∨ c = '\r' ∨ c = Char.ofNat 0x2028 ∨ c = Char.ofNat 0x2029 := by
    simp only [isLineTerm, Bool.or_eq_true, decide_eq_true_eq] at ht
    tauto
  rcases hcases with rfl | rfl | rfl | rfl
  · exact (langOk_not_mem h (by decide) (by decide) (by decide)) hc
  · exact (langOk_not_mem h (by decide) (by decide) (by decide)) hc
  · exact (langOk_not_mem h (by decide) (by decide) (by decide)) hc
  · exact (langOk_not_mem h (by decide) (by decide) (by decide)) hc

end Veloren

namespace Veloren

theorem matchCore_roundtrip {base lang : List Char} (h : langOk lang = true) :
    matchCore (base ++ '_' :: (lang ++ sufxT)) = some (base, lang) := by
  have hassoc : base ++ '_' :: (lang ++ sufxT) = (base ++ '_' :: lang) ++ sufxT := by
    simp [List.append_assoc]
  rw [hassoc]
  unfold matchCore
  have hmem : '_' ∉ lang := langOk_not_mem h (by decide) (by decide) (by decide)
  rw [stripSfx_append, Option.some_bind, lastSplit_eq hmem, Option.some_bind]
  simp [h]

theorem consumerMatch_roundtrip {pre base lang : List Char}
    (hpre : pre = [] ∨ ∃ q, pre = q ++ ['/'])
    (hb1 : '/' ∉ base) (hb2 : ∀ c ∈ base, isLineTerm c = false)
    (h : langOk lang = true) :
    consumerMatch (pre ++ (base ++ '_' :: (lang ++ sufxT))) = some (base, lang) := by
  have hlangLT := langOk_noLT h
  have hlangSl : '/' ∉ lang := langOk_not_mem h (by decide) (by decide) (by decide)
  have hTlt : ∀ c ∈ (base ++ '_' :: (lang ++ sufxT)), isLineTerm c = false := by
    intro c hc
    rcases List.mem_append.mp hc with hm | hm
    · exact hb2 c hm
    · rcases List.mem_cons.mp hm with rfl | hm
      · decide
      · rcases List.mem_append.mp hm with hm | hm
        · exact hlangLT c hm
        · exact sufxT_noLT c hm
  have hTsl : '/' ∉ (base ++ '_' :: (lang ++ sufxT)) := by
    intro hm
    rcases List.mem_append.mp hm with hm | hm
    · exact hb1 hm
    · rcases List.mem_cons.mp hm with heq | hm
      · exact absurd heq (by decide)
      · rcases List.mem_append.mp hm with hm | hm
        · exact hlangSl hm
        · revert hm; decide
  unfold consumerMatch
  rw [afterLastLT_append_right hTlt pre]
  rcases hpre with rfl | ⟨q, rfl⟩
  · have hnil : afterLastLT ([] : List Char) = [] := by decide
    rw [hnil, List.nil_append, afterLast_of_not_mem hTsl]
    exact matchCore_roundtrip h
  · rw [afterLastLT_append_right
      (by intro c hc; rcases List.mem_singleton.mp hc with rfl; decide) q]
    rw [List.append_assoc, List.singleton_append]
    rw [afterLast_append_last hTsl]
    exact matchCore_roundtrip h

theorem consumerMatch_sound {p b l : List Char} (h : consumerMatch p = some (b, l)) :
    langOk l = true ∧ ∃ pre, p = pre ++ (b ++ '_' :: (l ++ sufxT)) := by
  unfold consumerMatch matchCore at h
  cases hstrip : stripSfx sufxT (afterLast '/' (afterLastLT p)) with
  | none => rw [hstrip, Option.none_bind] at h; cases h
  | some core =>
      rw [hstrip, Option.some_bind] at h
      cases hsplit : lastSplit '_' core with
      | none => rw [hsplit, Option.none_bind] at h; cases h
      | some bl =>
          obtain ⟨b0, l0⟩ := bl
          rw [hsplit, Option.some_bind] at h
          by_cases hl : langOk l0 = true
          · rw [if_pos hl] at h
            obtain ⟨rfl, rfl⟩ : b0 = b ∧ l0 = l := by simpa using h
            refine ⟨hl, ?_⟩
            have h1 := stripSfx_sound hstrip
            have h2 := (lastSplit_sound hsplit).1
            obtain ⟨q1, hq1⟩ := afterLastLT_suffix_decomp p
            obtain ⟨q2, hq2⟩ := afterLast_suffix_decomp '/' (afterLastLT p)
            refine ⟨q1 ++ q2, ?_⟩
            conv_lhs => rw [hq1, hq2, h1, h2]
            simp [List.append_assoc]
          · rw [if_neg hl] at h; cases h

end Veloren

namespace Veloren

/-- C6: Filename contract round-trip.  For every `baseName` free of the
separator characters (`/` and the ECMAScript line terminators, which bound
where the unanchored pattern can match) and every `languageTag` matching
the 2-3 lowercase-letter primary code with an optional hyphenated 2-4
letter region subtag, matching the consumer pattern against a path ending
in `baseName_languageTag_translations.html` under any directory prefix
succeeds and recovers exactly `(baseName, languageTag)`; conversely every
accepted path has exactly that form (paths not of this form are
rejected). -/
theorem c6_filename_contract :
    (∀ pre base lang : List Char,
        (pre = [] ∨ ∃ q, pre = q ++ ['/']) →
        '/' ∉ base → noLT base = true → langOk lang = true →
        consumerMatch (pre ++ (base ++ '_' :: (lang ++ sufxT))) = some (base, lang)) ∧
    (∀ p b l : List Char, consumerMatch p = some (b, l) →
        langOk l = true ∧ ∃ pre, p = pre ++ (b ++ '_' :: (l ++ sufxT))) :=
  ⟨fun _ _ _ h1 h2 h3 h4 => consumerMatch_roundtrip h1 h2 (noLT_spec h3) h4,
   fun _ _ _ h => consumerMatch_sound h⟩

/-- Witness: the round-trip at a concrete prefixed path with region subtag. -/
theorem c6_filename_contract_witness :
    consumerMatch ("2024/veloren-post_pt-BR_translations.html".toList) =
      some ("veloren-post".toList, "pt-BR".toList) := by
  have heq : "2024/veloren-post_pt-BR_translations.html".toList =
      "2024/".toList ++ ("veloren-post".toList ++ '_' :: ("pt-BR".toList ++ sufxT)) := by
    decide
  rw [heq]
  exact c6_filename_contract.1 _ _ _ (Or.inr ⟨"2024".toList, by decide⟩)
    (by decide) (by decide) (by decide)

end Veloren

namespace Veloren

/-!
### Processed-set ledger (src/apps/rss-digester/src/index.ts)

`saveProcessedItems` runs `JSON.stringify(Array.from(set))`;
`getProcessedItems` runs `JSON.parse` on the downloaded blob and builds
`new Set(urls)` (empty set on a missing blob or any parse error).  The
JSON fragment reachable here is arrays of strings; the codec below models
`JSON.stringify` / `JSON.parse` on that fragment.  Lean `Char` cannot hold
lone UTF-16 surrogates, so `\uXXXX` escapes denoting lone surrogates are
rejected by the model (they are unreachable from `stringify` output).
-/

/-- Lowercase hex digit, as emitted by `JSON.stringify` in `\u00XX`. -/
def hexDig (n : Nat) : Char :=
  if n < 10 then Char.ofNat (48 + n) else Char.ofNat (87 + n)

/-- Hex digit value accepted by `JSON.parse` (either case). -/
def hexVal (c : Char) : Option Nat :=
  if '0' ≤ c ∧ c ≤ '9' then some (c.toNat - 48)
  else if 'a' ≤ c ∧ c ≤ 'f' then some (c.toNat - 87)
  else if 'A' ≤ c ∧ c ≤ 'F' then some (c.toNat - 55)
  else none

/-- `JSON.stringify` escaping of one character (ECMA-262 QuoteJSONString). -/
def jsonEscChar (c : Char) : List Char :=
  if c = '"' then ['\\', '"']
  else if c = '\\' then ['\\', '\\']
  else if c = '\x08' then ['\\', 'b']
  else if c = '\x0c' then ['\\', 'f']
  else if c = '\n' then ['\\', 'n']
  else if c = '\r' then ['\\', 'r']
  else if c = '\t' then ['\\', 't']
  else if c.toNat < 32 then ['\\', 'u', '0', '0', hexDig (c.toNat / 16), hexDig (c.toNat % 16)]
  else [c]

def jsonEscape : List Char → List Char
  | [] => []
  | c :: r => jsonEscChar c ++ jsonEscape r

/-- A double-quoted JSON string literal for `s`. -/
def jsonQuote (s : List Char) : List Char := '"' :: (jsonEscape s ++ ['"'])

/-- Comma-joined element literals of a stringified string array. -/
def arrBody : List (List Char) → List Char
  | [] => []
  | [x] => jsonQuote x
  | x :: xs => jsonQuote x ++ ',' :: arrBody xs

/-- `JSON.stringify` of an array of strings. -/
def jsonStringifyArr (l : List (List Char)) : List Char := '[' :: (arrBody l ++ [']'])

/-- JSON whitespace accepted between tokens by `JSON.parse`. -/
def isJsonWs (c : Char) : Bool := c = ' ' || c = '\t' || c = '\n' || c = '\r'

/-- Decoded character of a single-character JSON escape, or `none`. -/
def escMap (e : Char) : Option Char :=
  if e = '"' then some '"'
  else if e = '\\' then some '\\'
  else if e = '/' then some '/'
  else if e = 'b' then some '\x08'
  else if e = 'f' then some '\x0c'
  else if e = 'n' then some '\n'
  else if e = 'r' then some '\r'
  else if e = 't' then some '\t'
  else none

/-- Value of four hex digits, or `none` when one is not a hex digit. -/
def hex4 (a b c d : Char) : Option Nat :=
  (hexVal a).bind fun ha => (hexVal b).bind fun hb =>
    (hexVal c).bind fun hc => (hexVal d).bind fun hd =>
      some (((ha * 16 + hb) * 16 + hc) * 16 + hd)

/-!
`JSON.parse` string-literal body (after the opening quote): `parseJStr`
returns the decoded content and the input after the closing quote.
`parseEsc` handles the character after a backslash, `parseU` a `uXXXX`
escape, and `parsePair` the low half of a surrogate pair.
-/
mutual

def parseJStr : List Char → Option (List Char × List Char)
  | [] => none
  | c :: r =>
      if c = '"' then some ([], r)
      else if c = '\\' then parseEsc r
      else if c.toNat < 32 then none
      else (parseJStr r).map (fun p => (c :: p.1, p.2))

def parseEsc : List Char → Option (List Char × List Char)
  | [] => none
  | e :: r2 =>
      match escMap e with
      | some ch => (parseJStr r2).map (fun p => (ch :: p.1, p.2))
      | none => if e = 'u' then parseU r2 else none

def parseU : List Char → Option (List Char × List Char)
  | a :: b :: c2 :: d :: r3 =>
      match hex4 a b c2 d with
      | none => none
      | some n =>
          if 0xD800 ≤ n ∧ n ≤ 0xDBFF then parsePair n r3
          else if 0xDC00 ≤ n ∧ n ≤ 0xDFFF then none
          else (parseJStr r3).map (fun p => (Char.ofNat n :: p.1, p.2))
  | _ => none

def parsePair : Nat → List Char → Option (List Char × List Char)
  | n, x :: y :: a2 :: b2 :: c3 :: d2 :: r4 =>
      if x = '\\' then
        if y = 'u' then
          match hex4 a2 b2 c3 d2 with
          | none => none
          | some m =>
              if 0xDC00 ≤ m ∧ m ≤ 0xDFFF then
                (parseJStr r4).map (fun p =>
                  (Char.ofNat (0x10000 + (n - 0xD800) * 0x400 + (m - 0xDC00)) :: p.1, p.2))
              else none
        else none
      else none
  | _, _ => none

end

/-- `JSON.parse` of the element list of a non-empty string array: the input
starts right after `[` or after a separating `,`.  Fuel bounds the number of
elements; any fuel of at least the element count gives the real answer. -/
def parseItems : Nat → List Char → Option (List (List Char) × List Char)
  | 0, _ => none
  | fuel + 1, s =>
      match s.dropWhile isJsonWs with
      | '"' :: r =>
          match parseJStr r with
          | none => none
          | some (str, rest) =>
              match rest.dropWhile isJsonWs with
              | ',' :: r2 =>
                  match parseItems fuel r2 with
                  | none => none
                  | some (items, fin) => some (str :: items, fin)
              | ']' :: r2 => some ([str], r2)
              | _ => none
      | _ => none

/-- `JSON.parse` restricted to the string-array fragment reachable from the
ledger code path. -/
def parseStringArr (s : List Char) : Option (List (List Char)) :=
  match s.dropWhile isJsonWs with
  | '[' :: r =>
      match r.dropWhile isJsonWs with
      | ']' :: r2 => if r2.dropWhile isJsonWs = [] then some [] else none
      | _ =>
          match parseItems (r.length + 1) r with
          | none => none
          | some (items, fin) =>
              if fin.dropWhile isJsonWs = [] then some items else none
  | _ => none

/-- JavaScript `Set.prototype.add`: appends when absent (insertion order). -/
def setAdd (acc : List (List Char)) (x : List Char) : List (List Char) :=
  if x ∈ acc then acc else acc ++ [x]

/-- `new Set(urls)` over an array: first-occurrence insertion order. -/
def jsSetOfList (l : List (List Char)) : List (List Char) := l.foldl setAdd []

/-- `getProcessedItems`: download (`none` models the 404 / failed read
branch, which returns the empty set), `JSON.parse`, `new Set`. -/
def getProcessedItems (blob : Option (List Char)) : List (List Char) :=
  match blob with
  | none => []
  | some s =>
      match parseStringArr s with
      | some urls => jsSetOfList urls
      | none => []

/-- `saveProcessedItems`: `JSON.stringify(Array.from(set))`, written over
whatever was previously stored (the old blob is not consulted). -/
def saveProcessedItems (set : List (List Char)) (_oldBlob : Option (List Char)) : List Char :=
  jsonStringifyArr set

end Veloren

namespace Veloren

theorem hexVal_hexDig {m : Nat} (h : m < 16) : hexVal (hexDig m) = some m := by
  interval_cases m <;> decide

theorem parseJStr_quote (r : List Char) : parseJStr ('"' :: r) = some ([], r) := by
  simp [parseJStr]

theorem parseJStr_ord {c : Char} (h1 : c ≠ '"') (h2 : c ≠ '\\') (h3 : ¬ c.toNat < 32)
    (r : List Char) :
    parseJStr (c :: r) = (parseJStr r).map (fun p => (c :: p.1, p.2)) := by
  simp [parseJStr, h1, h2, h3]

theorem parseJStr_esc {e ch : Char} (h : escMap e = some ch) (r : List Char) :
    parseJStr ('\\' :: e :: r) = (parseJStr r).map (fun p => (ch :: p.1, p.2)) := by
  simp [parseJStr, parseEsc, h]

theorem parseJStr_esc_ctl {n : Nat} (hn : n < 32) (r : List Char) :
    parseJStr ('\\' :: 'u' :: '0' :: '0' :: hexDig (n / 16) :: hexDig (n % 16) :: r)
      = (parseJStr r).map (fun p => (Char.ofNat n :: p.1, p.2)) := by
  have hh4 : hex4 '0' '0' (hexDig (n / 16)) (hexDig (n % 16)) = some n := by
    unfold hex4
    have h0 : hexVal '0' = some 0 := by decide
    rw [h0, hexVal_hexDig (show n / 16 < 16 by omega), hexVal_hexDig (show n % 16 < 16 by omega)]
    simp only [Option.some_bind]
    have harith : ((0 * 16 + 0) * 16 + n / 16) * 16 + n % 16 = n := by omega
    rw [harith]
  have hs1 : ¬(0xD800 ≤ n ∧ n ≤ 0xDBFF) := by omega
  have hs2 : ¬(0xDC00 ≤ n ∧ n ≤ 0xDFFF) := by omega
  have hu : escMap 'u' = none := by decide
  simp [parseJStr, parseEsc, parseU, hu, hh4, hs1, hs2]

theorem parseJStr_escape (s : List Char) : ∀ rest : List Char,
    parseJStr (jsonEscape s ++ '"' :: rest) = some (s, rest) := by
  induction s with
  | nil =>
      intro rest
      show parseJStr ([] ++ '"' :: rest) = _
      rw [List.nil_append, parseJStr_quote]
  | cons c s ih =>
      intro rest
      have hgoal : jsonEscape (c :: s) ++ '"' :: rest
          = jsonEscChar c ++ (jsonEscape s ++ '"' :: rest) := by
        simp [jsonEscape, List.append_assoc]
      rw [hgoal]
      by_cases h1 : c = '"'
      · subst h1
        have he : jsonEscChar '"' = ['\\', '"'] := by decide
        rw [he]
        simp only [List.cons_append, List.nil_append]
        rw [parseJStr_esc (show escMap '"' = some '"' by decide), ih]
        rfl
      by_cases h2 : c = '\\'
      · subst h2
        have he : jsonEscChar '\\' = ['\\', '\\'] := by decide
        rw [he]
        simp only [List.cons_append, List.nil_append]
        rw [parseJStr_esc (show escMap '\\' = some '\\' by decide), ih]
        rfl
      by_cases h3 : c = '\x08'
      · subst h3
        have he : jsonEscChar '\x08' = ['\\', 'b'] := by decide
        rw [he]
        simp only [List.cons_append, List.nil_append]
        rw [parseJStr_esc (show escMap 'b' = some '\x08' by decide), ih]
        rfl
      by_cases h4 : c = '\x0c'
      · subst h4
        have he : jsonEscChar '\x0c' = ['\\', 'f'] := by decide
        rw [he]
        simp only [List.cons_append, List.nil_append]
        rw [parseJStr_esc (show escMap 'f' = some '\x0c' by decide), ih]
        rfl
      by_cases h5 : c = '\n'
      · subst h5
        have he : jsonEscChar '\n' = ['\\', 'n'] := by decide
        rw [he]
        simp only [List.cons_append, List.nil_append]
        rw [parseJStr_esc (show escMap 'n' = some '\n' by decide), ih]
        rfl
      by_cases h6 : c = '\r'
      · subst h6
        have he : jsonEscChar '\r' = ['\\', 'r'] := by decide
        rw [he]
        simp only [List.cons_append, List.nil_append]
        rw [parseJStr_esc (show escMap 'r' = some '\r' by decide), ih]
        rfl
      by_cases h7 : c = '\t'
      · subst h7
        have he : jsonEscChar '\t' = ['\\', 't'] := by decide
        rw [he]
        simp only [List.cons_append, List.nil_append]
        rw [parseJStr_esc (show escMap 't' = some '\t' by decide), ih]
        rfl
      by_cases hctl : c.toNat < 32
      · have he : jsonEscChar c
            = ['\\', 'u', '0', '0', hexDig (c.toNat / 16), hexDig (c.toNat % 16)] := by
          simp [jsonEscChar, h1, h2, h3, h4, h5, h6, h7, hctl]
        rw [he]
        simp only [List.cons_append, List.nil_append]
        rw [parseJStr_esc_ctl hctl, ih]
        simp [Char.ofNat_toNat]
      · have he : jsonEscChar c = [c] := by
          simp [jsonEscChar, h1, h2, h3, h4, h5, h6, h7, hctl]
        rw [he]
        simp only [List.cons_append, List.nil_append]
        rw [parseJStr_ord h1 h2 hctl, ih]
        rfl

end Veloren

namespace Veloren

theorem arrBody_length : ∀ l : List (List Char), l.length ≤ (arrBody l).length := by
  intro l
  induction l with
  | nil => simp [arrBody]
  | cons x xs ih =>
      cases xs with
      | nil => simp [arrBody, jsonQuote]
      | cons y ys =>
          have harr : arrBody (x :: y :: ys) = jsonQuote x ++ ',' :: arrBody (y :: ys) := rfl
          rw [harr]
          simp only [List.length_append, List.length_cons, jsonQuote]
          have := ih
          simp only [List.length_cons] at this ⊢
          omega

theorem parseItems_cons_quote (f : Nat) (x after : List Char) :
    parseItems (f + 1) ('"' :: (jsonEscape x ++ '"' :: after))
      = (match after.dropWhile isJsonWs with
         | ',' :: r2 =>
             (match parseItems f r2 with
              | none => none
              | some (items, fin) => some (x :: items, fin))
         | ']' :: r2 => some ([x], r2)
         | _ => none) := by
  simp [parseItems, parseJStr_escape, isJsonWs]

theorem parseItems_arr : ∀ (l : List (List Char)) (f : Nat) (rest : List Char),
    l ≠ [] → l.length ≤ f + 1 →
    parseItems (f + 1) (arrBody l ++ ']' :: rest) = some (l, rest) := by
  intro l
  induction l with
  | nil => intro f rest h _; exact absurd rfl h
  | cons x xs ih =>
      intro f rest _ hlen
      cases xs with
      | nil =>
          have hshape : arrBody [x] ++ ']' :: rest
              = '"' :: (jsonEscape x ++ '"' :: (']' :: rest)) := by
            simp [arrBody, jsonQuote, List.append_assoc]
          rw [hshape]
          simp [parseItems, parseJStr_escape, isJsonWs]
      | cons y ys =>
          have hf : ∃ f2, f = f2 + 1 := by
            refine ⟨f - 1, ?_⟩
            simp only [List.length_cons] at hlen
            omega
          obtain ⟨f2, rfl⟩ := hf
          have hshape : arrBody (x :: y :: ys) ++ ']' :: rest
              = '"' :: (jsonEscape x ++ '"' :: (',' :: (arrBody (y :: ys) ++ ']' :: rest))) := by
            show (jsonQuote x ++ ',' :: arrBody (y :: ys)) ++ ']' :: rest = _
            simp [jsonQuote, List.append_assoc]
          have hih : parseItems (f2 + 1) (arrBody (y :: ys) ++ ']' :: rest)
              = some (y :: ys, rest) := by
            refine ih f2 rest (by simp) ?_
            simp only [List.length_cons] at hlen ⊢
            omega
          rw [hshape, parseItems_cons_quote]
          rw [List.dropWhile_cons_of_neg (by decide)]
          simp [hih]

theorem parseStringArr_stringify (l : List (List Char)) :
    parseStringArr (jsonStringifyArr l) = some l := by
  cases l with
  | nil => decide
  | cons x xs =>
      have hhead : ∃ t, arrBody (x :: xs) = '"' :: t := by
        cases xs with
        | nil => exact ⟨jsonEscape x ++ ['"'], by simp [arrBody, jsonQuote]⟩
        | cons y ys =>
            exact ⟨(jsonEscape x ++ ['"']) ++ ',' :: arrBody (y :: ys),
              by show jsonQuote x ++ ',' :: arrBody (y :: ys) = _; simp [jsonQuote]⟩
      obtain ⟨t, ht⟩ := hhead
      have hitems : ∀ f : Nat, (x :: xs).length ≤ f + 1 →
          parseItems (f + 1) ('"' :: (t ++ [']'])) = some (x :: xs, []) := by
        intro f hf
        have hit := parseItems_arr (x :: xs) f [] (by simp) hf
        rw [ht] at hit
        simpa [List.cons_append] using hit
      have hbnd : (x :: xs).length ≤ t.length + 1 + 1 + 1 := by
        have h1 := arrBody_length (x :: xs)
        rw [ht] at h1
        simp only [List.length_cons] at h1 ⊢
        omega
      unfold parseStringArr jsonStringifyArr
      rw [List.dropWhile_cons_of_neg (by decide)]
      rw [ht]
      simp only [List.cons_append, List.length_cons, List.length_append, List.length_nil]
      rw [List.dropWhile_cons_of_neg (by decide)]
      simp [isJsonWs, hitems (t.length + 1 + 1) (by simpa using hbnd)]

theorem foldl_setAdd_nodup : ∀ (l acc : List (List Char)), (acc ++ l).Nodup →
    l.foldl setAdd acc = acc ++ l := by
  intro l
  induction l with
  | nil => intro acc _; simp
  | cons x xs ih =>
      intro acc h
      have hx : x ∉ acc := by
        intro hmem
        rw [List.nodup_append] at h
        exact h.2.2 hmem (by simp)
      show xs.foldl setAdd (setAdd acc x) = acc ++ x :: xs
      rw [setAdd, if_neg hx]
      have hassoc : acc ++ [x] ++ xs = acc ++ x :: xs := by simp
      rw [← hassoc]
      exact ih (acc ++ [x]) (by rw [hassoc]; exact h)

/-- C7: Ledger persistence round-trip.  For every set `S` of link strings
(a JavaScript `Set` iterates in insertion order without duplicates, so `S`
is a duplicate-free list), `saveProcessedItems` serializes `S` as a JSON
array in insertion order, overwriting the stored object regardless of its
previous content, and `getProcessedItems` parses that array back into the
same set. -/
theorem c7_ledger_roundtrip (s : List (List Char)) (oldBlob : Option (List Char))
    (h : s.Nodup) : getProcessedItems (some (saveProcessedItems s oldBlob)) = s := by
  show (match parseStringArr (jsonStringifyArr s) with
        | some urls => jsSetOfList urls
        | none => []) = s
  rw [parseStringArr_stringify]
  show jsSetOfList s = s
  exact foldl_setAdd_nodup s [] (by simpa using h)

/-- Witness: saving then loading a concrete two-link ledger returns it
unchanged, regardless of the previously stored blob. -/
theorem c7_ledger_roundtrip_witness :
    getProcessedItems (some (saveProcessedItems
        ["http://example.com/post1".toList, "http://example.com/post2".toList]
        (some "[]".toList)))
      = ["http://example.com/post1".toList, "http://example.com/post2".toList] :=
  c7_ledger_roundtrip _ _ (by decide)

end Veloren

namespace Veloren

/-!
### Ingest (src/apps/rss-digester/src/index.ts, `main`)

A feed item from `rss-parser` with the fields the handler reads; absent
fields are `none`.  JavaScript string truthiness makes `""` fall back to
the same defaults as `undefined`, which `strOr` models.
-/

structure FeedItem where
  title : Option (List Char)
  link : Option (List Char)
  pubDate : Option (List Char)
  content : Option (List Char)
  contentEncoded : Option (List Char)

/-- JavaScript `x || d` for an optional string `x`. -/
def strOr (x : Option (List Char)) (d : List Char) : List Char :=
  match x with
  | none => d
  | some s => if s = [] then d else s

def itemTitle (i : FeedItem) : List Char := strOr i.title "No Title".toList

def itemPubDate (i : FeedItem) (nowIso : List Char) : List Char := strOr i.pubDate nowIso

def itemUrl (i : FeedItem) : List Char := strOr i.link "No URL".toList

def itemContent (i : FeedItem) : List Char :=
  strOr i.content (strOr i.contentEncoded [])

/-- `title.replace(/[^a-zA-Z0-9]/g, "_")` acts on UTF-16 code units, so a
character above U+FFFF (a surrogate pair in JavaScript) becomes two
underscores. -/
def sanitizeChar (c : Char) : List Char :=
  if isAlnumAZ c then [c]
  else if 0xFFFF < c.toNat then ['_', '_'] else ['_']

def sanitizeTitle : List Char → List Char
  | [] => []
  | c :: r => sanitizeChar c ++ sanitizeTitle r

/-- Uppercase hex digit as emitted by `encodeURIComponent`. -/
def hexDigU (n : Nat) : Char :=
  if n < 10 then Char.ofNat (48 + n) else Char.ofNat (55 + n)

/-- UTF-8 bytes of a code point. -/
def utf8Bytes (n : Nat) : List Nat :=
  if n < 0x80 then [n]
  else if n < 0x800 then [0xC0 + n / 64, 0x80 + n % 64]
  else if n < 0x10000 then [0xE0 + n / 4096, 0x80 + n / 64 % 64, 0x80 + n % 64]
  else [0xF0 + n / 262144, 0x80 + n / 4096 % 64, 0x80 + n / 64 % 64, 0x80 + n % 64]

def pctByte (b : Nat) : List Char := ['%', hexDigU (b / 16), hexDigU (b % 16)]

/-- Characters `encodeURIComponent` leaves unescaped. -/
def isUriUnreserved (c : Char) : Bool :=
  isAlnumAZ c || c = '-' || c = '_' || c = '.' || c = '!' || c = '~'
    || c = '*' || c = Char.ofNat 39 || c = '(' || c = ')'

def encodeURIComp : List Char → List Char
  | [] => []
  | c :: r =>
      (if isUriUnreserved c then [c]
       else (utf8Bytes c.toNat).foldr (fun b acc => pctByte b ++ acc) [])
        ++ encodeURIComp r

/-- The produced object file name:
`${encodeURIComponent(title.replace(/[^a-zA-Z0-9]/g, "_").substring(0, 50))}-${Date.now()}.html`. -/
def fileNameOf (title : List Char) (now : Nat) : List Char :=
  encodeURIComp ((sanitizeTitle title).take 50) ++ '-' :: ((Nat.repr now).toList ++ ".html".toList)

/-- `raw-html/${fileName}` for a feed item, using the defaulted title. -/
def filePathOf (i : FeedItem) (now : Nat) : List Char :=
  "raw-html/".toList ++ fileNameOf (itemTitle i) now

/- The attribute-lookup literals of the consumer regexes
`/data-title="([^"]*)"/`, `/data-pubdate="([^"]*)"/`, `/data-url="([^"]*)"/`
and `/data-cover="([^"]*)"/`: everything up to and including the opening
quote of the capture group. -/

def patTitle : List Char := "data-title=\"".toList

def patPubdate : List Char := "data-pubdate=\"".toList

def patUrl : List Char := "data-url=\"".toList

def patCover : List Char := "data-cover=\"".toList

/- The exact template-literal segments of `htmlContent` (lines 113-120 of
the Ingest handler), split so that the attribute literals appear as the
tails of the segments preceding each interpolated value; `envTn_eq` below
records the literal text of each segment. -/

def envT1pre : List Char := "\n        <div style=\"display:none;\"\n             ".toList

def envT1 : List Char := envT1pre ++ patTitle

def envT2pre : List Char := "\"\n             ".toList

def envT2 : List Char := envT2pre ++ patPubdate

def envT3pre : List Char := "\"\n             ".toList

def envT3 : List Char := envT3pre ++ patUrl

def envT4 : List Char := "\">\n        </div>\n        ".toList

def envT5 : List Char := "\n      ".toList

theorem envT1_eq :
    envT1 = "\n        <div style=\"display:none;\"\n             data-title=\"".toList := by
  decide

theorem envT2_eq : envT2 = "\"\n             data-pubdate=\"".toList := by decide

theorem envT3_eq : envT3 = "\"\n             data-url=\"".toList := by decide

/-- The envelope-wrapped HTML Ingest uploads for one item. -/
def htmlContentOf (title pubDate url content : List Char) : List Char :=
  envT1 ++ title ++ envT2 ++ pubDate ++ envT3 ++ url ++ envT4 ++ content ++ envT5

/-- The new-item filter predicate:
`item.link && !processedItems.has(item.link)` (an absent or empty link is
falsy). -/
def isNewItem (processed : List (List Char)) (i : FeedItem) : Bool :=
  match i.link with
  | none => false
  | some l => !(l = []) && !(l ∈ processed)

/-- `currentItems.filter(...)`. -/
def newItemsOf (items : List FeedItem) (processed : List (List Char)) : List FeedItem :=
  items.filter (isNewItem processed)

/-- `if (item.link) newProcessedItems.add(item.link)`. -/
def addLink (acc : List (List Char)) (i : FeedItem) : List (List Char) :=
  match i.link with
  | none => acc
  | some l => if l = [] then acc else setAdd acc l

/-- Observable effects of one Ingest invocation: raw-HTML objects whose
`save` succeeded, the serialized ledger written by `saveProcessedItems`
(`none` when the save is never reached), and the HTTP response. -/
structure IngestOutcome where
  objectWrites : List (List Char × List Char)
  ledgerWrite : Option (List Char)
  status : Nat
  body : List Char

/-- One Ingest invocation.  `items` is the parsed feed, `blob` the current
ledger object (`none` = absent), `now`/`nowIso` the clock sampled during
the run (the code samples `Date.now()` per item; a single invocation-wide
sample is used here), `failPaths` the object paths whose `save` rejects,
and `errMsg` the message of the first rejection.  The per-item uploads run
under `Promise.all`: every save is attempted, successful saves persist
even when another fails, and the item links are added to the ledger set in
item order; if any save rejects the handler answers 500 and
`saveProcessedItems` is never called. -/
def ingest (items : List FeedItem) (blob : Option (List Char)) (now : Nat)
    (nowIso : List Char) (failPaths : List (List Char)) (errMsg : List Char) : IngestOutcome :=
  if items.isEmpty then
    ⟨[], none, 200, "No RSS items to process.".toList⟩
  else
    let processed := getProcessedItems blob
    let newItems := newItemsOf items processed
    if newItems.isEmpty then
      ⟨[], none, 200, "No new RSS items to process.".toList⟩
    else
      let attempts := newItems.map fun i =>
        (filePathOf i now,
         htmlContentOf (itemTitle i) (itemPubDate i nowIso) (itemUrl i) (itemContent i))
      if attempts.any (fun a => a.1 ∈ failPaths) then
        ⟨attempts.filter (fun a => ¬ a.1 ∈ failPaths), none, 500,
         "Error processing RSS feed: ".toList ++ errMsg⟩
      else
        ⟨attempts, some (saveProcessedItems (newItems.foldl addLink processed) blob),
         200, "New RSS feed digestion completed successfully.".toList⟩

end Veloren

namespace Veloren

theorem sanitizeTitle_chars : ∀ (s : List Char) (c : Char), c ∈ sanitizeTitle s →
    isAlnumAZ c = true ∨ c = '_' := by
  intro s
  induction s with
  | nil => intro c hc; simp [sanitizeTitle] at hc
  | cons a r ih =>
      intro c hc
      simp only [sanitizeTitle] at hc
      rcases List.mem_append.mp hc with hm | hm
      · unfold sanitizeChar at hm
        by_cases ha : isAlnumAZ a = true
        · rw [if_pos ha] at hm
          simp at hm
          subst hm
          exact Or.inl ha
        · rw [if_neg ha] at hm
          by_cases hbig : 0xFFFF < a.toNat
          · rw [if_pos hbig] at hm
            simp at hm
            exact Or.inr hm
          · rw [if_neg hbig] at hm
            simp at hm
            exact Or.inr hm
      · exact ih c hm

theorem encodeURIComp_id : ∀ s : List Char, (∀ c ∈ s, isUriUnreserved c = true) →
    encodeURIComp s = s := by
  intro s
  induction s with
  | nil => intro _; rfl
  | cons c r ih =>
      intro h
      show (if isUriUnreserved c then [c]
            else (utf8Bytes c.toNat).foldr (fun b acc => pctByte b ++ acc) []) ++ encodeURIComp r
          = c :: r
      rw [if_pos (h c (by simp)), ih (fun d hd => h d (by simp [hd]))]
      rfl

theorem alnum_unreserved {c : Char} (h : isAlnumAZ c = true) : isUriUnreserved c = true := by
  unfold isUriUnreserved
  rw [h]
  rfl

/-- C9 (amended): the raw object path has the exact form
`raw-html/<slug>-<timestampMillis>.html`, where the slug is the (defaulted)
title with every character outside `[a-zA-Z0-9]` replaced by `_` (two `_`
for a character above U+FFFF), truncated to at most 50 UTF-16 units; the
subsequent `encodeURIComponent` is the identity on such a slug.  The slug
is *not* restricted to ASCII alphanumerics: it may contain `_`. -/
theorem c9_producer_naming (i : FeedItem) (now : Nat) :
    filePathOf i now
      = "raw-html/".toList ++ ((sanitizeTitle (itemTitle i)).take 50
          ++ '-' :: ((Nat.repr now).toList ++ ".html".toList))
    ∧ ((sanitizeTitle (itemTitle i)).take 50).length ≤ 50
    ∧ (∀ c ∈ (sanitizeTitle (itemTitle i)).take 50, isAlnumAZ c = true ∨ c = '_') := by
  have hchars : ∀ c ∈ (sanitizeTitle (itemTitle i)).take 50, isAlnumAZ c = true ∨ c = '_' := by
    intro c hc
    exact sanitizeTitle_chars _ c (List.mem_of_mem_take hc)
  refine ⟨?_, ?_, hchars⟩
  · unfold filePathOf fileNameOf
    rw [encodeURIComp_id]
    intro c hc
    rcases hchars c hc with h | h
    · exact alnum_unreserved h
    · subst h; decide
  · rw [List.length_take]
    exact min_le_left _ _

/-- C9 counterexample: the claim's "strip to ASCII alphanumerics" fails:
for the title `"a b"` the written path is `raw-html/a_b-0.html` (the space
becomes an underscore, which is not an ASCII alphanumeric), not
`raw-html/ab-0.html`. -/
theorem c9_producer_naming_counterexample :
    filePathOf ⟨some "a b".toList, some "http://e/1".toList, none, none, none⟩ 0
        = "raw-html/a_b-0.html".toList
    ∧ filePathOf ⟨some "a b".toList, some "http://e/1".toList, none, none, none⟩ 0
        ≠ "raw-html/ab-0.html".toList
    ∧ isAlnumAZ '_' = false := by
  refine ⟨by decide, by decide, by decide⟩

end Veloren

namespace Veloren

theorem ingest_writes_nofail (items : List FeedItem) (blob : Option (List Char))
    (now : Nat) (nowIso errMsg : List Char) :
    (ingest items blob now nowIso [] errMsg).objectWrites
      = (newItemsOf items (getProcessedItems blob)).map (fun j =>
          (filePathOf j now,
           htmlContentOf (itemTitle j) (itemPubDate j nowIso) (itemUrl j) (itemContent j))) := by
  by_cases hempty : items.isEmpty
  · have h0 : items = [] := List.isEmpty_iff.mp hempty
    subst h0
    rfl
  · by_cases hnew : (newItemsOf items (getProcessedItems blob)).isEmpty
    · have h1 : newItemsOf items (getProcessedItems blob) = [] := List.isEmpty_iff.mp hnew
      simp [ingest, hempty, h1]
    · have h1 : newItemsOf items (getProcessedItems blob) ≠ [] := by
        intro h2
        rw [h2] at hnew
        exact hnew rfl
      simp [ingest, hempty, h1]

theorem mem_foldl_addLink : ∀ (l : List FeedItem) (acc : List (List Char)) (x : List Char),
    x ∈ l.foldl addLink acc → x ∈ acc ∨ ∃ j ∈ l, j.link = some x ∧ x ≠ [] := by
  intro l
  induction l with
  | nil => intro acc x hx; exact Or.inl hx
  | cons j rest ih =>
      intro acc x hx
      rcases ih (addLink acc j) x hx with hmem | ⟨j2, hj2, hl2⟩
      · unfold addLink at hmem
        cases hj : j.link with
        | none => simp only [hj] at hmem; exact Or.inl hmem
        | some l2 =>
            simp only [hj] at hmem
            by_cases hl2e : l2 = []
            · rw [if_pos hl2e] at hmem; exact Or.inl hmem
            · rw [if_neg hl2e] at hmem
              unfold setAdd at hmem
              by_cases hin : l2 ∈ acc
              · rw [if_pos hin] at hmem; exact Or.inl hmem
              · rw [if_neg hin] at hmem
                rcases List.mem_append.mp hmem with h | h
                · exact Or.inl h
                · simp only [List.mem_singleton] at h
                  subst h
                  exact Or.inr ⟨j, by simp, hj, hl2e⟩
      · exact Or.inr ⟨j2, by simp [hj2], hl2⟩

/-- C1: Dedup correctness of Ingest.  With a loaded ledger holding exactly
the distinct links `A`, `B` and a feed carrying items with links `A`, `B`,
`C` (`C` fresh), the run writes exactly the raw object of the third item
and saves the ledger `[A, B, C]`; in general the new-item filter keeps, in
order, exactly the candidates (with truthy links) whose link is absent
from the loaded set. -/
theorem c1_dedup :
    (∀ (A B C : List Char) (iA iB iC : FeedItem) (now : Nat) (nowIso errMsg : List Char),
      iA.link = some A → iB.link = some B → iC.link = some C →
      A ≠ [] → B ≠ [] → C ≠ [] → A ≠ B → C ≠ A → C ≠ B →
      ingest [iA, iB, iC] (some (jsonStringifyArr [A, B])) now nowIso [] errMsg
        = ⟨[(filePathOf iC now,
             htmlContentOf (itemTitle iC) (itemPubDate iC nowIso) (itemUrl iC) (itemContent iC))],
           some (jsonStringifyArr [A, B, C]), 200,
           "New RSS feed digestion completed successfully.".toList⟩) ∧
    (∀ (cands : List FeedItem) (loaded : List (List Char)),
      (∀ i ∈ cands, ∃ l, i.link = some l ∧ l ≠ []) →
      newItemsOf cands loaded = cands.filter (fun i => !(i.link.getD [] ∈ loaded))) := by
  constructor
  · intro A B C iA iB iC now nowIso errMsg hA hB hC hAne hBne hCne hAB hCA hCB
    have hload : getProcessedItems (some (jsonStringifyArr [A, B])) = [A, B] := by
      show (match parseStringArr (jsonStringifyArr [A, B]) with
            | some urls => jsSetOfList urls
            | none => []) = [A, B]
      rw [parseStringArr_stringify]
      exact foldl_setAdd_nodup [A, B] [] (by simp [hAB])
    have hnew : newItemsOf [iA, iB, iC] [A, B] = [iC] := by
      simp [newItemsOf, List.filter, isNewItem, hA, hB, hC, hAne, hBne, hCne, hCA, hCB]
    simp only [ingest, hload, hnew]
    simp [addLink, hC, hCne, setAdd, hCA, hCB, saveProcessedItems]
  · intro cands loaded h
    unfold newItemsOf
    apply List.filter_congr
    intro i hi
    obtain ⟨l, hl, hlne⟩ := h i hi
    simp [isNewItem, hl, hlne]

end Veloren

namespace Veloren

/-- Witness: the dedup scenario at concrete links and items. -/
theorem c1_dedup_witness :
    ingest [⟨some "ta".toList, some "http://e/a".toList, none, none, none⟩,
            ⟨some "tb".toList, some "http://e/b".toList, none, none, none⟩,
            ⟨some "tc".toList, some "http://e/c".toList, none, none, none⟩]
        (some (jsonStringifyArr ["http://e/a".toList, "http://e/b".toList]))
        0 "2024-01-01".toList [] []
      = ⟨[(filePathOf ⟨some "tc".toList, some "http://e/c".toList, none, none, none⟩ 0,
           htmlContentOf
             (itemTitle ⟨some "tc".toList, some "http://e/c".toList, none, none, none⟩)
             (itemPubDate ⟨some "tc".toList, some "http://e/c".toList, none, none, none⟩
               "2024-01-01".toList)
             (itemUrl ⟨some "tc".toList, some "http://e/c".toList, none, none, none⟩)
             (itemContent ⟨some "tc".toList, some "http://e/c".toList, none, none, none⟩))],
         some (jsonStringifyArr
           ["http://e/a".toList, "http://e/b".toList, "http://e/c".toList]),
         200, "New RSS feed digestion completed successfully.".toList⟩ :=
  c1_dedup.1 "http://e/a".toList "http://e/b".toList "http://e/c".toList _ _ _ 0
    "2024-01-01".toList [] rfl rfl rfl (by decide) (by decide) (by decide)
    (by decide) (by decide) (by decide)

/-- C2: Partial-failure atomicity of the ledger.  Whenever some new item's
object write fails, the invocation answers 500 and the ledger is never
saved; concretely, with two new items whose second write fails, only the
first object exists, the ledger write is absent, and both items are
classified as new again against the unchanged (absent) ledger. -/
theorem c2_partial_failure :
    (∀ (items : List FeedItem) (blob : Option (List Char)) (now : Nat)
        (nowIso failMsg : List Char) (failPaths : List (List Char)),
      (∃ i ∈ newItemsOf items (getProcessedItems blob), filePathOf i now ∈ failPaths) →
      (ingest items blob now nowIso failPaths failMsg).ledgerWrite = none ∧
      (ingest items blob now nowIso failPaths failMsg).status = 500) ∧
    (∀ (i1 i2 : FeedItem) (l1 l2 : List Char) (now : Nat) (nowIso failMsg : List Char),
      i1.link = some l1 → i2.link = some l2 → l1 ≠ [] → l2 ≠ [] →
      filePathOf i1 now ≠ filePathOf i2 now →
      ingest [i1, i2] none now nowIso [filePathOf i2 now] failMsg
        = ⟨[(filePathOf i1 now,
             htmlContentOf (itemTitle i1) (itemPubDate i1 nowIso) (itemUrl i1) (itemContent i1))],
           none, 500, "Error processing RSS feed: ".toList ++ failMsg⟩ ∧
      newItemsOf [i1, i2] (getProcessedItems none) = [i1, i2]) := by
  constructor
  · intro items blob now nowIso failMsg failPaths hex
    obtain ⟨i, hi, hfail⟩ := hex
    have hitems : ¬ items.isEmpty = true := by
      intro he
      have h0 := List.isEmpty_iff.mp he
      subst h0
      simp [newItemsOf] at hi
    have hnewne : newItemsOf items (getProcessedItems blob) ≠ [] := by
      intro he
      rw [he] at hi
      simp at hi
    have hany : ((newItemsOf items (getProcessedItems blob)).map (fun i =>
        (filePathOf i now,
         htmlContentOf (itemTitle i) (itemPubDate i nowIso) (itemUrl i) (itemContent i)))).any
          (fun a => a.1 ∈ failPaths) = true := by
      rw [List.any_eq_true]
      refine ⟨(filePathOf i now,
        htmlContentOf (itemTitle i) (itemPubDate i nowIso) (itemUrl i) (itemContent i)),
        List.mem_map_of_mem _ hi, by simpa using hfail⟩
    constructor <;> simp [ingest, hitems, hnewne, hany]
  · intro i1 i2 l1 l2 now nowIso failMsg h1 h2 hn1 hn2 hpath
    have hload : getProcessedItems none = [] := rfl
    have hnew : newItemsOf [i1, i2] [] = [i1, i2] := by
      simp [newItemsOf, List.filter, isNewItem, h1, h2, hn1, hn2]
    refine ⟨?_, by rw [hload, hnew]⟩
    simp only [ingest, hload, hnew]
    simp [List.filter, hpath]

/-- Witness: partial failure at two concrete items with distinct titles. -/
theorem c2_partial_failure_witness :
    ingest [⟨some "ta".toList, some "http://e/a".toList, none, none, none⟩,
            ⟨some "tb".toList, some "http://e/b".toList, none, none, none⟩]
        none 0 "2024-01-01".toList
        [filePathOf ⟨some "tb".toList, some "http://e/b".toList, none, none, none⟩ 0]
        "Storage write error".toList
      = ⟨[(filePathOf ⟨some "ta".toList, some "http://e/a".toList, none, none, none⟩ 0,
           htmlContentOf
             (itemTitle ⟨some "ta".toList, some "http://e/a".toList, none, none, none⟩)
             (itemPubDate ⟨some "ta".toList, some "http://e/a".toList, none, none, none⟩
               "2024-01-01".toList)
             (itemUrl ⟨some "ta".toList, some "http://e/a".toList, none, none, none⟩)
             (itemContent ⟨some "ta".toList, some "http://e/a".toList, none, none, none⟩))],
         none, 500, "Error processing RSS feed: ".toList ++ "Storage write error".toList⟩
    ∧ newItemsOf [⟨some "ta".toList, some "http://e/a".toList, none, none, none⟩,
                  ⟨some "tb".toList, some "http://e/b".toList, none, none, none⟩]
        (getProcessedItems none)
      = [⟨some "ta".toList, some "http://e/a".toList, none, none, none⟩,
         ⟨some "tb".toList, some "http://e/b".toList, none, none, none⟩] :=
  c2_partial_failure.2 _ _ "http://e/a".toList "http://e/b".toList 0 "2024-01-01".toList
    "Storage write error".toList rfl rfl (by decide) (by decide) (by decide)

end Veloren

namespace Veloren

/-- C10: a feed item whose `link` is absent or empty is silently excluded
from the new-item batch: it never passes the filter, every raw-HTML write
of a successful run comes from a filtered (truthy-link) item, and every
link in the ledger set passed to the save was either already loaded or is
the nonempty link of a filtered item. -/
theorem c10_falsy_link_excluded (items : List FeedItem) (blob : Option (List Char))
    (now : Nat) (nowIso errMsg : List Char) (i : FeedItem)
    (hlink : i.link = none ∨ i.link = some []) :
    i ∉ newItemsOf items (getProcessedItems blob) ∧
    (ingest items blob now nowIso [] errMsg).objectWrites
      = (newItemsOf items (getProcessedItems blob)).map (fun j =>
          (filePathOf j now,
           htmlContentOf (itemTitle j) (itemPubDate j nowIso) (itemUrl j) (itemContent j))) ∧
    (∀ x ∈ (newItemsOf items (getProcessedItems blob)).foldl addLink (getProcessedItems blob),
        x ∈ getProcessedItems blob
          ∨ ∃ j ∈ newItemsOf items (getProcessedItems blob), j.link = some x ∧ x ≠ []) := by
  refine ⟨?_, ingest_writes_nofail items blob now nowIso errMsg, ?_⟩
  · intro hmem
    have hfil := List.of_mem_filter hmem
    rcases hlink with h | h <;> simp [isNewItem, h] at hfil
  · intro x hx
    exact mem_foldl_addLink _ _ x hx

/-- Witness: a linkless item and an empty-link item are both excluded while
a normal item passes. -/
theorem c10_falsy_link_excluded_witness :
    (⟨some "bad".toList, none, none, none, none⟩ : FeedItem)
      ∉ newItemsOf [⟨some "bad".toList, none, none, none, none⟩,
                    ⟨some "ok".toList, some "http://e/x".toList, none, none, none⟩]
          (getProcessedItems none) :=
  (c10_falsy_link_excluded
    [⟨some "bad".toList, none, none, none, none⟩,
     ⟨some "ok".toList, some "http://e/x".toList, none, none, none⟩]
    none 0 "2024-01-01".toList [] _ (Or.inl rfl)).1

end Veloren

namespace Veloren

/-!
### Envelope decoding (Render-Markdown and Render-JSON)

`String.prototype.match` with `/key="([^"]*)"/` returns the capture of the
leftmost occurrence: everything after the first occurrence of the literal
`key="` up to the next `"`.  If no closing quote follows the first literal
occurrence there is no later occurrence either (a later occurrence starts
with a quote), so the whole match fails.
-/

/-- Split a list at the first (leftmost) occurrence of `pat`: returns the
part before the occurrence and the part after it. -/
def splitFirst (pat : List Char) : List Char → Option (List Char × List Char)
  | [] => if pat.isEmpty then some ([], []) else none
  | c :: rest =>
      if pat.isPrefixOf (c :: rest) then some ([], (c :: rest).drop pat.length)
      else (splitFirst pat rest).map (fun p => (c :: p.1, p.2))

/-- The capture of the regex `<pat>([^"]*)"` at its leftmost match. -/
def extractAttr (pat html : List Char) : Option (List Char) :=
  (splitFirst pat html).bind fun pr =>
    if pr.2.any (fun c => c = '"') then some (pr.2.takeWhile (fun c => c ≠ '"'))
    else none

/-- Continuation-byte value of a `%XY` UTF-8 continuation escape. -/
def contOk (p a b : Char) : Option Nat :=
  if p = '%' then
    match hexVal a, hexVal b with
    | some ha, some hb =>
        if 0x80 ≤ ha * 16 + hb ∧ ha * 16 + hb ≤ 0xBF then some (ha * 16 + hb) else none
    | _, _ => none
  else none

/-!
`decodeURIComponent`: percent-escapes decode as UTF-8 (overlong forms,
surrogate code points, values past U+10FFFF and malformed escapes throw,
modelled as `none`); all other characters pass through.  `pctDecode`
handles the input after a `%`.
-/
mutual

def decodeURIComp : List Char → Option (List Char)
  | [] => some []
  | c :: r =>
      if c = '%' then pctDecode r
      else (decodeURIComp r).map (fun t => c :: t)

def pctDecode : List Char → Option (List Char)
  | a :: b :: r2 =>
      (match hexVal a, hexVal b with
       | some ha, some hb =>
          if ha * 16 + hb < 0x80 then
            (decodeURIComp r2).map (fun t => Char.ofNat (ha * 16 + hb) :: t)
          else if ha * 16 + hb < 0xC2 then none
          else if ha * 16 + hb < 0xE0 then
            match r2 with
            | p2 :: a2 :: b2 :: r3 =>
                (match contOk p2 a2 b2 with
                 | some v2 =>
                    (decodeURIComp r3).map (fun t =>
                      Char.ofNat ((ha * 16 + hb - 0xC0) * 64 + v2) :: t)
                 | none => none)
            | _ => none
          else if ha * 16 + hb < 0xF0 then
            match r2 with
            | p2 :: a2 :: b2 :: p3 :: a3 :: b3 :: r4 =>
                (match contOk p2 a2 b2, contOk p3 a3 b3 with
                 | some v2, some v3 =>
                    if (ha * 16 + hb - 0xE0) * 4096 + v2 * 64 + v3 < 0x800
                        ∨ (0xD800 ≤ (ha * 16 + hb - 0xE0) * 4096 + v2 * 64 + v3
                            ∧ (ha * 16 + hb - 0xE0) * 4096 + v2 * 64 + v3 ≤ 0xDFFF) then
                      none
                    else
                      (decodeURIComp r4).map (fun t =>
                        Char.ofNat ((ha * 16 + hb - 0xE0) * 4096 + v2 * 64 + v3) :: t)
                 | _, _ => none)
            | _ => none
          else if ha * 16 + hb < 0xF5 then
            match r2 with
            | p2 :: a2 :: b2 :: p3 :: a3 :: b3 :: p4 :: a4 :: b4 :: r5 =>
                (match contOk p2 a2 b2, contOk p3 a3 b3, contOk p4 a4 b4 with
                 | some v2, some v3, some v4 =>
                    if (ha * 16 + hb - 0xF0) * 262144 + v2 * 4096 + v3 * 64 + v4 < 0x10000
                        ∨ 0x10FFFF < (ha * 16 + hb - 0xF0) * 262144 + v2 * 4096 + v3 * 64 + v4 then
                      none
                    else
                      (decodeURIComp r5).map (fun t =>
                        Char.ofNat ((ha * 16 + hb - 0xF0) * 262144 + v2 * 4096 + v3 * 64 + v4) :: t)
                 | _, _, _ => none)
            | _ => none
          else none
       | _, _ => none)
  | _ => none

end

/-- Metadata decoded by Render-Markdown (first variant of
html-to-markdown/src/index.ts, lines 73-83; the second variant is
identical here). -/
structure MdMeta where
  title : List Char
  date : List Char
  sourceUrl : List Char
  deriving DecidableEq

/-- Render-Markdown envelope decoding: independent lookups, then
`decodeURIComponent` on a present title (its `URIError` is modelled as
`none`), with the documented defaults. -/
def mdDecode (html nowIso : List Char) : Option MdMeta :=
  match (match extractAttr patTitle html with
         | some t => decodeURIComp t
         | none => some "Untitled Post".toList) with
  | none => none
  | some t =>
      some ⟨t,
        (match extractAttr patPubdate html with
         | some p => p
         | none => nowIso),
        (match extractAttr patUrl html with
         | some u => u
         | none => "No URL".toList)⟩

/-- Metadata decoded by Render-JSON (src/unnamed/part_002, lines 53-63):
`url` and `cover` stay optional (`urlMatch?.[1]`, `coverMatch?.[1]`). -/
structure JsonMeta where
  title : List Char
  date : List Char
  sourceUrl : Option (List Char)
  cover : Option (List Char)
  deriving DecidableEq

/-- Render-JSON envelope decoding. -/
def jsonDecode (html nowIso : List Char) : Option JsonMeta :=
  match (match extractAttr patTitle html with
         | some t => decodeURIComp t
         | none => some "Untitled Post".toList) with
  | none => none
  | some t =>
      some ⟨t,
        (match extractAttr patPubdate html with
         | some p => p
         | none => nowIso),
        extractAttr patUrl html,
        extractAttr patCover html⟩

end Veloren

namespace Veloren

/-- C8 (amended): each envelope attribute is looked up independently and
decoding succeeds whenever the title attribute is absent; an absent title
resolves to the sentinel `Untitled Post`, an absent publish date to the
decode-time timestamp in both decoders, while an absent source URL
resolves to the sentinel string `No URL` in Render-Markdown but to an
absent (`undefined`) value, not a sentinel string, in Render-JSON, whose
cover lookup is likewise independent and optional. -/
theorem c8_absent_defaults :
    (∀ html nowIso : List Char,
      extractAttr patTitle html = none → extractAttr patPubdate html = none →
      extractAttr patUrl html = none → extractAttr patCover html = none →
      mdDecode html nowIso = some ⟨"Untitled Post".toList, nowIso, "No URL".toList⟩ ∧
      jsonDecode html nowIso = some ⟨"Untitled Post".toList, nowIso, none, none⟩) ∧
    (∀ html nowIso : List Char, extractAttr patTitle html = none →
      mdDecode html nowIso = some ⟨"Untitled Post".toList,
        (match extractAttr patPubdate html with
         | some p => p
         | none => nowIso),
        (match extractAttr patUrl html with
         | some u => u
         | none => "No URL".toList)⟩) ∧
    (∀ html nowIso : List Char, extractAttr patTitle html = none →
      jsonDecode html nowIso = some ⟨"Untitled Post".toList,
        (match extractAttr patPubdate html with
         | some p => p
         | none => nowIso),
        extractAttr patUrl html, extractAttr patCover html⟩) := by
  refine ⟨?_, ?_, ?_⟩
  · intro html nowIso h1 h2 h3 h4
    constructor
    · unfold mdDecode
      rw [h1, h2, h3]
    · unfold jsonDecode
      rw [h1, h2, h3, h4]
  · intro html nowIso h1
    unfold mdDecode
    rw [h1]
  · intro html nowIso h1
    unfold jsonDecode
    rw [h1]

/-- Witness: the defaults at a concrete envelope-free HTML body. -/
theorem c8_absent_defaults_witness :
    mdDecode "<p>x</p>".toList "2024-07-30T10:00:00Z".toList
        = some ⟨"Untitled Post".toList, "2024-07-30T10:00:00Z".toList, "No URL".toList⟩ ∧
    jsonDecode "<p>x</p>".toList "2024-07-30T10:00:00Z".toList
        = some ⟨"Untitled Post".toList, "2024-07-30T10:00:00Z".toList, none, none⟩ :=
  c8_absent_defaults.1 "<p>x</p>".toList "2024-07-30T10:00:00Z".toList
    (by decide) (by decide) (by decide) (by decide)

/-- C8 counterexample: on HTML with no `data-url` attribute the
Render-JSON decoder yields no URL value at all (`undefined`, serialized as
an omitted field), not a sentinel string, while Render-Markdown yields the
string `No URL`; the two consuming stages therefore do not share the
claimed sentinel behaviour. -/
theorem c8_absent_defaults_counterexample :
    jsonDecode "<p>x</p>".toList "2024-07-30T10:00:00Z".toList
        = some ⟨"Untitled Post".toList, "2024-07-30T10:00:00Z".toList, none, none⟩ ∧
    mdDecode "<p>x</p>".toList "2024-07-30T10:00:00Z".toList
        = some ⟨"Untitled Post".toList, "2024-07-30T10:00:00Z".toList, "No URL".toList⟩ ∧
    (∀ s : List Char,
      (jsonDecode "<p>x</p>".toList "2024-07-30T10:00:00Z".toList).map JsonMeta.sourceUrl
        ≠ some (some s)) := by
  refine ⟨by decide, by decide, ?_⟩
  intro s h
  have : (none : Option (List Char)) = some s := by
    have h2 : (jsonDecode "<p>x</p>".toList "2024-07-30T10:00:00Z".toList).map JsonMeta.sourceUrl
        = some none := by decide
    rw [h2] at h
    exact Option.some.inj h
  cases this

end Veloren

namespace Veloren

theorem prefix_append_cases {pat x y : List Char} (h : pat <+: x ++ y) :
    (pat.length ≤ x.length ∧ pat <+: x)
      ∨ (x.length < pat.length ∧ x <+: pat ∧ pat.drop x.length <+: y) := by
  by_cases hl : pat.length ≤ x.length
  · left
    refine ⟨hl, ?_⟩
    have h1 : (x ++ y).take pat.length = pat := by
      obtain ⟨v, hv⟩ := h
      rw [← hv]
      exact List.take_left' rfl
    have h2 : x.take pat.length = pat := by
      rw [← List.take_append_of_le_length hl, h1]
    have h3 := List.take_prefix pat.length x
    rwa [h2] at h3
  · right
    push_neg at hl
    have hxp : x <+: pat := by
      obtain ⟨v, hv⟩ := h
      have h1 : pat.take x.length = x := by
        rw [← List.take_append_of_le_length (le_of_lt hl), hv,
          List.take_append_of_le_length (le_refl _), List.take_length]
      have h3 := List.take_prefix x.length pat
      rwa [h1] at h3
    refine ⟨hl, hxp, ?_⟩
    obtain ⟨w, hw⟩ := hxp
    obtain ⟨v, hv⟩ := h
    have hwd : pat.drop x.length = w := by
      rw [← hw, List.drop_left]
    rw [hwd]
    rw [← hw, List.append_assoc] at hv
    have h4 := List.append_cancel_left hv
    exact ⟨v, h4⟩

theorem splitFirst_sound {pat s x y : List Char} (h : splitFirst pat s = some (x, y)) :
    s = x ++ pat ++ y := by
  induction s generalizing x y with
  | nil =>
      unfold splitFirst at h
      by_cases hp : pat.isEmpty
      · simp only [hp, if_true, Option.some.injEq, Prod.mk.injEq] at h
        obtain ⟨rfl, rfl⟩ := h
        have hpe : pat = [] := by
          cases pat with
          | nil => rfl
          | cons c r => simp [List.isEmpty] at hp
        rw [hpe]
        rfl
      · simp [hp] at h
  | cons c rest ih =>
      unfold splitFirst at h
      by_cases hp : pat.isPrefixOf (c :: rest)
      · rw [if_pos hp] at h
        simp only [Option.some.injEq, Prod.mk.injEq] at h
        obtain ⟨rfl, rfl⟩ := h
        rw [List.isPrefixOf_iff_prefix] at hp
        obtain ⟨w, hw⟩ := hp
        have hd : (c :: rest).drop pat.length = w := by
          rw [← hw]
          exact List.drop_left _ _
        rw [List.nil_append, hd]
        exact hw.symm
      · rw [if_neg hp] at h
        cases hsf : splitFirst pat rest with
        | none => rw [hsf] at h; simp at h
        | some q =>
            rw [hsf] at h
            obtain ⟨q1, q2⟩ := q
            simp only [Option.map_some', Option.some.injEq, Prod.mk.injEq] at h
            obtain ⟨rfl, rfl⟩ := h
            have := ih hsf
            rw [this]
            rfl

theorem splitFirst_append_left {pat a x y : List Char} (h : splitFirst pat a = some (x, y))
    (b : List Char) : splitFirst pat (a ++ b) = some (x, y ++ b) := by
  induction a generalizing x y with
  | nil =>
      unfold splitFirst at h
      by_cases hp : pat.isEmpty
      · simp only [hp, if_true, Option.some.injEq, Prod.mk.injEq] at h
        obtain ⟨rfl, rfl⟩ := h
        have hpe : pat = [] := by
          cases pat with
          | nil => rfl
          | cons c r => simp [List.isEmpty] at hp
        cases b with
        | nil => simp [splitFirst, hp]
        | cons c r =>
            show splitFirst pat (c :: r) = some ([], [] ++ c :: r)
            unfold splitFirst
            rw [if_pos (by rw [hpe, List.isPrefixOf_iff_prefix]; exact List.nil_prefix), hpe]
            rfl
      · simp [hp] at h
  | cons c rest ih =>
      unfold splitFirst at h
      by_cases hp : pat.isPrefixOf (c :: rest)
      · rw [if_pos hp] at h
        simp only [Option.some.injEq, Prod.mk.injEq] at h
        obtain ⟨rfl, rfl⟩ := h
        have hp2 : pat.isPrefixOf (c :: rest ++ b) := by
          rw [List.isPrefixOf_iff_prefix] at hp ⊢
          exact hp.trans (by simp)
        have hlen : pat.length ≤ (c :: rest).length := by
          rw [List.isPrefixOf_iff_prefix] at hp
          exact hp.length_le
        show splitFirst pat (c :: (rest ++ b)) = _
        unfold splitFirst
        rw [if_pos (by simpa using hp2)]
        have hdr : (c :: (rest ++ b)).drop pat.length = (c :: rest).drop pat.length ++ b := by
          have h3 : (c :: rest) ++ b = c :: (rest ++ b) := rfl
          rw [← h3, List.drop_append_of_le_length hlen]
        rw [hdr]
      · rw [if_neg hp] at h
        cases hsf : splitFirst pat rest with
        | none => rw [hsf] at h; simp at h
        | some q =>
            rw [hsf] at h
            obtain ⟨q1, q2⟩ := q
            simp only [Option.map_some', Option.some.injEq, Prod.mk.injEq] at h
            obtain ⟨rfl, rfl⟩ := h
            have hocc := splitFirst_sound hsf
            have hplen : pat.length ≤ rest.length := by
              rw [hocc]
              simp only [List.length_append]
              omega
            have hp2 : ¬ pat.isPrefixOf (c :: rest ++ b) := by
              intro habs
              rw [List.isPrefixOf_iff_prefix] at habs hp
              rcases prefix_append_cases (x := c :: rest) (y := b) habs with ⟨_, hc⟩ | ⟨hlt, _, _⟩
              · exact hp hc
              · simp only [List.length_cons] at hlt
                omega
            show splitFirst pat (c :: (rest ++ b)) = _
            unfold splitFirst
            rw [if_neg (by simpa using hp2), ih hsf]
            rfl

end Veloren

namespace Veloren

theorem splitFirst_self {pat : List Char} (hne : pat ≠ []) (X : List Char) :
    splitFirst pat (pat ++ X) = some ([], X) := by
  obtain ⟨c, pr, rfl⟩ := List.exists_cons_of_ne_nil hne
  show splitFirst (c :: pr) (c :: (pr ++ X)) = some ([], X)
  unfold splitFirst
  rw [if_pos (by rw [List.isPrefixOf_iff_prefix]; exact ⟨X, rfl⟩)]
  have hshape : c :: (pr ++ X) = (c :: pr) ++ X := rfl
  rw [hshape, List.drop_left]

theorem splitFirst_eq_none {pat s : List Char} (h : ∀ k, ¬ (pat <+: s.drop k)) :
    splitFirst pat s = none := by
  induction s with
  | nil =>
      unfold splitFirst
      rw [if_neg]
      intro hp
      have hpe : pat = [] := by
        cases pat with
        | nil => rfl
        | cons c r => simp [List.isEmpty] at hp
      exact h 0 (by rw [hpe]; exact List.nil_prefix)
  | cons c rest ih =>
      have h0 : ¬ pat.isPrefixOf (c :: rest) = true := by
        rw [List.isPrefixOf_iff_prefix]
        exact h 0
      have hrest : ∀ k, ¬ (pat <+: rest.drop k) := fun k => h (k + 1)
      unfold splitFirst
      rw [if_neg h0, ih hrest]
      rfl

theorem no_occ_append {pat x y : List Char}
    (hx : ∀ k, ¬ (pat <+: x.drop k))
    (hstr : ∀ k, k < x.length → x.length - k < pat.length → (x.drop k <+: pat) →
        ¬ (pat.drop (x.length - k) <+: y))
    (hy : ∀ k, ¬ (pat <+: y.drop k)) :
    ∀ k, ¬ (pat <+: (x ++ y).drop k) := by
  intro k hp
  by_cases hk : k < x.length
  · rw [List.drop_append_of_le_length (le_of_lt hk)] at hp
    rcases prefix_append_cases hp with ⟨_, hpx⟩ | ⟨hlt, hxp, hrest⟩
    · exact hx k hpx
    · exact hstr k hk (by simpa using hlt) hxp (by simpa using hrest)
  · push_neg at hk
    have hdr : (x ++ y).drop k = y.drop (k - x.length) := by
      have h2 : k = x.length + (k - x.length) := by omega
      conv_lhs => rw [h2]
      rw [List.drop_append]
    rw [hdr] at hp
    exact hy _ hp

theorem splitFirst_append_skip {pat a s : List Char}
    (h1 : ∀ k, ¬ (pat <+: a.drop k))
    (h2 : ∀ k, k < a.length → a.length - k < pat.length → (a.drop k <+: pat) →
        ¬ (pat.drop (a.length - k) <+: s)) :
    splitFirst pat (a ++ s) = (splitFirst pat s).map (fun q => (a ++ q.1, q.2)) := by
  induction a with
  | nil =>
      simp only [List.nil_append]
      cases hs : splitFirst pat s with
      | none => simp
      | some q => simp
  | cons c a' ih =>
      have hnp : ¬ pat.isPrefixOf (c :: (a' ++ s)) = true := by
        rw [List.isPrefixOf_iff_prefix]
        intro hp
        have hp2 : pat <+: (c :: a') ++ s := hp
        rcases prefix_append_cases (x := c :: a') (y := s) hp2 with ⟨_, hc⟩ | ⟨hlt, hxp, hrest⟩
        · exact h1 0 hc
        · exact h2 0 (by simp) (by simpa using hlt) hxp (by simpa using hrest)
      have h1' : ∀ k, ¬ (pat <+: a'.drop k) := fun k => h1 (k + 1)
      have h2' : ∀ k, k < a'.length → a'.length - k < pat.length → (a'.drop k <+: pat) →
          ¬ (pat.drop (a'.length - k) <+: s) := by
        intro k hk hlen hpre
        have harith : a'.length - k = (c :: a').length - (k + 1) := by
          simp only [List.length_cons]
          omega
        rw [harith]
        rw [harith] at hlen
        exact h2 (k + 1) (by simp only [List.length_cons]; omega) hlen hpre
      show splitFirst pat (c :: (a' ++ s)) = _
      conv_lhs => unfold splitFirst
      rw [if_neg hnp, ih h1' h2']
      cases hs : splitFirst pat s with
      | none => simp
      | some q => simp

def noOccB (pat x : List Char) : Bool :=
  (List.range (x.length + 1)).all (fun k => !(pat.isPrefixOf (x.drop k)))

theorem noOccB_spec {pat x : List Char} (h : noOccB pat x = true) (hne : pat ≠ []) :
    ∀ k, ¬ (pat <+: x.drop k) := by
  intro k hp
  by_cases hk : k ≤ x.length
  · have h2 := List.all_eq_true.mp h k (List.mem_range.mpr (by omega))
    rw [← List.isPrefixOf_iff_prefix] at hp
    simp [hp] at h2
  · push_neg at hk
    rw [List.drop_eq_nil_of_le (by omega)] at hp
    rw [List.prefix_nil] at hp
    exact hne hp

def noSufPreB (x pat : List Char) : Bool :=
  (List.range x.length).all (fun k => !((x.drop k).isPrefixOf pat))

theorem noSufPreB_spec {x pat : List Char} (h : noSufPreB x pat = true) :
    ∀ k, k < x.length → ¬ (x.drop k <+: pat) := by
  intro k hk hp
  have h2 := List.all_eq_true.mp h k (List.mem_range.mpr hk)
  rw [← List.isPrefixOf_iff_prefix] at hp
  simp [hp] at h2

/-- Which proper nonzero drops of `pat` are prefixes of `y`: all of them
must equal `j0`. -/
def dropPreOnly (pat y : List Char) (j0 : Nat) : Bool :=
  (List.range pat.length).all (fun j => j == 0 || j == j0 || !((pat.drop j).isPrefixOf y))

theorem dropPreOnly_spec (pat y : List Char) (j0 : Nat) (h : dropPreOnly pat y j0 = true) :
    ∀ j, 0 < j → j < pat.length → (pat.drop j <+: y) → j = j0 := by
  intro j hj hjl hp
  have h2 := List.all_eq_true.mp h j (List.mem_range.mpr hjl)
  rw [← List.isPrefixOf_iff_prefix] at hp
  simp [hp] at h2
  rcases h2 with h3 | h3
  · omega
  · exact h3

theorem prefix_append_reduce {w y z : List Char} (h : w <+: y ++ z)
    (hl : w.length ≤ y.length) : w <+: y := by
  rcases prefix_append_cases h with ⟨_, hc⟩ | ⟨hlt, _, _⟩
  · exact hc
  · omega

theorem decodeURIComp_no_pct : ∀ {s : List Char}, '%' ∉ s → decodeURIComp s = some s := by
  intro s
  induction s with
  | nil => intro _; rfl
  | cons c r ih =>
      intro h
      simp only [List.mem_cons, not_or] at h
      obtain ⟨hc0, hr⟩ := h
      have hc : c ≠ '%' := fun he => hc0 he.symm
      unfold decodeURIComp
      rw [if_neg hc, ih hr]
      rfl

end Veloren

namespace Veloren

theorem extract_title_env (t p u c : List Char) (ht : '"' ∉ t) :
    extractAttr patTitle (htmlContentOf t p u c) = some t := by
  have hshape : htmlContentOf t p u c
      = envT1 ++ (t ++ (envT2 ++ (p ++ (envT3 ++ (u ++ (envT4 ++ (c ++ envT5))))))) := by
    unfold htmlContentOf
    simp [List.append_assoc]
  have h1 : splitFirst patTitle envT1 = some (envT1pre, []) := by decide
  have h2 := splitFirst_append_left h1
    (t ++ (envT2 ++ (p ++ (envT3 ++ (u ++ (envT4 ++ (c ++ envT5)))))))
  rw [List.nil_append] at h2
  unfold extractAttr
  rw [hshape]
  have hT2 : envT2 = '"' :: "\n             data-pubdate=\"".toList := by decide
  have hrest : t ++ (envT2 ++ (p ++ (envT3 ++ (u ++ (envT4 ++ (c ++ envT5))))))
      = t ++ '"' :: ("\n             data-pubdate=\"".toList
          ++ (p ++ (envT3 ++ (u ++ (envT4 ++ (c ++ envT5)))))) := by
    rw [hT2]
    rfl
  rw [hrest]
  rw [hrest] at h2
  rw [h2, Option.some_bind]
  have hany : (t ++ '"' :: ("\n             data-pubdate=\"".toList
      ++ (p ++ (envT3 ++ (u ++ (envT4 ++ (c ++ envT5))))))).any (fun ch => ch = '"') = true := by
    rw [List.any_eq_true]
    exact ⟨'"', by simp, by simp⟩
  rw [if_pos hany]
  rw [takeWhile_append_of_all (fun ch hch => by
      simp only [decide_eq_true_eq, ne_eq]
      intro he
      exact ht (he ▸ hch)) (by simp)]

end Veloren

namespace Veloren

theorem no_occ_in_sym {pat s : List Char} (hq : '"' ∈ pat) (hs : '"' ∉ s) :
    ∀ k, ¬ (pat <+: s.drop k) := by
  intro k hp
  exact hs (List.mem_of_mem_drop (hp.subset hq))

/-- Straddle step from a symbolic value `s` (with no `=`) into the next
concrete segment `y`: the only drop of `pat` that can prefix `y` is the
final quote, and that choice forces `s` to end with the `=` of the
attribute literal. -/
theorem straddle_val (pat y : List Char) (j0 : Nat) (hdp : dropPreOnly pat y j0 = true)
    (heq : '=' ∈ pat.take j0) {s : List Char} (hs2 : '=' ∉ s) :
    ∀ k, k < s.length → s.length - k < pat.length → (s.drop k <+: pat) →
      ¬ (pat.drop (s.length - k) <+: y) := by
  intro k hk hlen hpre hrest
  have hrl : (s.drop k).length = s.length - k := by rw [List.length_drop]
  have hj := dropPreOnly_spec pat y j0 hdp (s.length - k) (by omega) hlen hrest
  have hr : s.drop k = pat.take (s.length - k) := by
    rw [List.prefix_iff_eq_take] at hpre
    rw [hpre, hrl]
  rw [hj] at hr
  have hmem : '=' ∈ s.drop k := by rw [hr]; exact heq
  exact hs2 (List.mem_of_mem_drop hmem)

/-- As `straddle_val` when the concrete segment is followed by more input
that the short pattern drop cannot reach. -/
theorem straddle_val_append (pat y z : List Char) (j0 : Nat)
    (hdp : dropPreOnly pat y j0 = true) (hylen : pat.length ≤ y.length)
    (heq : '=' ∈ pat.take j0) {s : List Char} (hs2 : '=' ∉ s) :
    ∀ k, k < s.length → s.length - k < pat.length → (s.drop k <+: pat) →
      ¬ (pat.drop (s.length - k) <+: y ++ z) :=
  fun k hk hl hpre hrest => straddle_val pat y j0 hdp heq hs2 k hk hl hpre
    (prefix_append_reduce hrest (by rw [List.length_drop]; omega))

/-- No suffix of the concrete segment `x` starts the pattern, so nothing
straddles out of it. -/
theorem straddle_conc {x pat : List Char} (h : noSufPreB x pat = true) (w : List Char) :
    ∀ k, k < x.length → x.length - k < pat.length → (x.drop k <+: pat) →
      ¬ (pat.drop (x.length - k) <+: w) :=
  fun k hk _ hpre _ => noSufPreB_spec h k hk hpre

/-- Nothing straddles from the prefix `a` into an input that begins with
the pattern itself (the pattern has no self-overlap). -/
theorem straddle_into_self (pat : List Char) (hself : dropPreOnly pat pat pat.length = true)
    {a : List Char} (rest : List Char) :
    ∀ k, k < a.length → a.length - k < pat.length → (a.drop k <+: pat) →
      ¬ (pat.drop (a.length - k) <+: pat ++ rest) := by
  intro k hk hlen _ hrest
  have hred : pat.drop (a.length - k) <+: pat :=
    prefix_append_reduce hrest (by rw [List.length_drop]; omega)
  have hj := dropPreOnly_spec pat pat pat.length hself (a.length - k) (by omega) hlen hred
  omega

theorem extract_pubdate_env (t p u c : List Char)
    (ht1 : '"' ∉ t) (ht2 : '=' ∉ t) (hp1 : '"' ∉ p) :
    extractAttr patPubdate (htmlContentOf t p u c) = some p := by
  have hshape : htmlContentOf t p u c
      = (envT1 ++ (t ++ envT2pre))
          ++ (patPubdate ++ (p ++ (envT3 ++ (u ++ (envT4 ++ (c ++ envT5)))))) := by
    unfold htmlContentOf envT2
    simp [List.append_assoc]
  have hpatne : patPubdate ≠ [] := by decide
  have h1 : ∀ k, ¬ (patPubdate <+: (envT1 ++ (t ++ envT2pre)).drop k) := by
    refine no_occ_append (noOccB_spec (by decide) hpatne) ?_ ?_
    · intro k hk _ hpre _
      exact noSufPreB_spec (by decide) k hk hpre
    · refine no_occ_append (no_occ_in_sym (by decide) ht1) ?_
        (noOccB_spec (by decide) hpatne)
      intro k hk hlen hpre hrest
      have hrl : (t.drop k).length = t.length - k := by rw [List.length_drop]
      have hj := dropPreOnly_spec patPubdate envT2pre 13
        (by decide) (t.length - k) (by omega) hlen hrest
      have hr : t.drop k = patPubdate.take (t.length - k) := by
        rw [List.prefix_iff_eq_take] at hpre
        rw [hpre, hrl]
      rw [hj] at hr
      have hmem : '=' ∈ t.drop k := by
        rw [hr]
        decide
      exact ht2 (List.mem_of_mem_drop hmem)
  have h2 : ∀ k, k < (envT1 ++ (t ++ envT2pre)).length →
      (envT1 ++ (t ++ envT2pre)).length - k < patPubdate.length →
      ((envT1 ++ (t ++ envT2pre)).drop k <+: patPubdate) →
      ¬ (patPubdate.drop ((envT1 ++ (t ++ envT2pre)).length - k)
          <+: patPubdate ++ (p ++ (envT3 ++ (u ++ (envT4 ++ (c ++ envT5)))))) := by
    intro k hk hlen _ hrest
    have hred : patPubdate.drop ((envT1 ++ (t ++ envT2pre)).length - k) <+: patPubdate := by
      refine prefix_append_reduce hrest ?_
      rw [List.length_drop]
      omega
    have hj := dropPreOnly_spec patPubdate patPubdate patPubdate.length
      (by decide) ((envT1 ++ (t ++ envT2pre)).length - k)
      (by omega) hlen hred
    omega
  have hsf : splitFirst patPubdate (htmlContentOf t p u c)
      = some (envT1 ++ (t ++ envT2pre), p ++ (envT3 ++ (u ++ (envT4 ++ (c ++ envT5))))) := by
    rw [hshape, splitFirst_append_skip h1 h2, splitFirst_self hpatne]
    simp
  unfold extractAttr
  rw [hsf, Option.some_bind]
  have hT3 : envT3 = '"' :: "\n             data-url=\"".toList := by decide
  have hrest2 : p ++ (envT3 ++ (u ++ (envT4 ++ (c ++ envT5))))
      = p ++ '"' :: ("\n             data-url=\"".toList ++ (u ++ (envT4 ++ (c ++ envT5)))) := by
    rw [hT3]
    rfl
  rw [hrest2]
  have hany : (p ++ '"' :: ("\n             data-url=\"".toList
      ++ (u ++ (envT4 ++ (c ++ envT5))))).any (fun ch => ch = '"') = true := by
    rw [List.any_eq_true]
    exact ⟨'"', by simp, by simp⟩
  rw [if_pos hany]
  rw [takeWhile_append_of_all (fun ch hch => by
      simp only [decide_eq_true_eq, ne_eq]
      intro he
      exact hp1 (he ▸ hch)) (by simp)]

end Veloren

namespace Veloren

theorem straddle_never (pat y : List Char) (hdp : dropPreOnly pat y pat.length = true)
    {s : List Char} :
    ∀ k, k < s.length → s.length - k < pat.length → (s.drop k <+: pat) →
      ¬ (pat.drop (s.length - k) <+: y) := by
  intro k hk hlen _ hrest
  have hj := dropPreOnly_spec pat y pat.length hdp (s.length - k) (by omega) hlen hrest
  omega

theorem extract_url_env (t p u c : List Char)
    (ht1 : '"' ∉ t) (ht2 : '=' ∉ t) (hp1 : '"' ∉ p) (hp2 : '=' ∉ p) (hu1 : '"' ∉ u) :
    extractAttr patUrl (htmlContentOf t p u c) = some u := by
  have hshape : htmlContentOf t p u c
      = (envT1 ++ (t ++ (envT2 ++ (p ++ envT3pre))))
          ++ (patUrl ++ (u ++ (envT4 ++ (c ++ envT5)))) := by
    unfold htmlContentOf envT3
    simp [List.append_assoc]
  have hpatne : patUrl ≠ [] := by decide
  have h1 : ∀ k, ¬ (patUrl <+: (envT1 ++ (t ++ (envT2 ++ (p ++ envT3pre)))).drop k) := by
    refine no_occ_append (noOccB_spec (by decide) hpatne) (straddle_conc (by decide) _) ?_
    refine no_occ_append (no_occ_in_sym (by decide) ht1)
      (straddle_val_append patUrl envT2 (p ++ envT3pre) 9 (by decide) (by decide)
        (by decide) ht2) ?_
    refine no_occ_append (noOccB_spec (by decide) hpatne) (straddle_conc (by decide) _) ?_
    exact no_occ_append (no_occ_in_sym (by decide) hp1)
      (straddle_val patUrl envT3pre 9 (by decide) (by decide) hp2)
      (noOccB_spec (by decide) hpatne)
  have h2 := straddle_into_self patUrl (by decide)
    (a := envT1 ++ (t ++ (envT2 ++ (p ++ envT3pre))))
    (u ++ (envT4 ++ (c ++ envT5)))
  have hsf : splitFirst patUrl (htmlContentOf t p u c)
      = some (envT1 ++ (t ++ (envT2 ++ (p ++ envT3pre))), u ++ (envT4 ++ (c ++ envT5))) := by
    rw [hshape, splitFirst_append_skip h1 h2, splitFirst_self hpatne]
    simp
  unfold extractAttr
  rw [hsf, Option.some_bind]
  have hT4 : envT4 = '"' :: ">\n        </div>\n        ".toList := by decide
  have hrest2 : u ++ (envT4 ++ (c ++ envT5))
      = u ++ '"' :: (">\n        </div>\n        ".toList ++ (c ++ envT5)) := by
    rw [hT4]
    rfl
  rw [hrest2]
  have hany : (u ++ '"' :: (">\n        </div>\n        ".toList
      ++ (c ++ envT5))).any (fun ch => ch = '"') = true := by
    rw [List.any_eq_true]
    exact ⟨'"', by simp, by simp⟩
  rw [if_pos hany]
  rw [takeWhile_append_of_all (fun ch hch => by
      simp only [decide_eq_true_eq, ne_eq]
      intro he
      exact hu1 (he ▸ hch)) (by simp)]

theorem extract_cover_env (t p u c : List Char)
    (ht1 : '"' ∉ t) (ht2 : '=' ∉ t) (hp1 : '"' ∉ p) (hp2 : '=' ∉ p)
    (hu1 : '"' ∉ u) (hu2 : '=' ∉ u) (hc : noOccB patCover c = true) :
    extractAttr patCover (htmlContentOf t p u c) = none := by
  have hpatne : patCover ≠ [] := by decide
  have hnone : splitFirst patCover (htmlContentOf t p u c) = none := by
    have hshape : htmlContentOf t p u c
        = envT1 ++ (t ++ (envT2 ++ (p ++ (envT3 ++ (u ++ (envT4 ++ (c ++ envT5))))))) := by
      unfold htmlContentOf
      simp [List.append_assoc]
    rw [hshape]
    refine splitFirst_eq_none ?_
    refine no_occ_append (noOccB_spec (by decide) hpatne) (straddle_conc (by decide) _) ?_
    refine no_occ_append (no_occ_in_sym (by decide) ht1)
      (straddle_val_append patCover envT2 (p ++ (envT3 ++ (u ++ (envT4 ++ (c ++ envT5))))) 11
        (by decide) (by decide) (by decide) ht2) ?_
    refine no_occ_append (noOccB_spec (by decide) hpatne) (straddle_conc (by decide) _) ?_
    refine no_occ_append (no_occ_in_sym (by decide) hp1)
      (straddle_val_append patCover envT3 (u ++ (envT4 ++ (c ++ envT5))) 11
        (by decide) (by decide) (by decide) hp2) ?_
    refine no_occ_append (noOccB_spec (by decide) hpatne) (straddle_conc (by decide) _) ?_
    refine no_occ_append (no_occ_in_sym (by decide) hu1)
      (straddle_val_append patCover envT4 (c ++ envT5) 11
        (by decide) (by decide) (by decide) hu2) ?_
    refine no_occ_append (noOccB_spec (by decide) hpatne) (straddle_conc (by decide) _) ?_
    exact no_occ_append (noOccB_spec hc hpatne) (straddle_never patCover envT5 (by decide))
      (noOccB_spec (by decide) hpatne)
  unfold extractAttr
  rw [hnone]
  rfl

end Veloren

namespace Veloren

/-- C3 (amended): the Ingest envelope encodes only title, publish date and
source URL; for values free of `"`, `=` (and `%` in the title, which would
be reinterpreted by the consumer-side `decodeURIComponent`), and a body
carrying no `data-cover="` marker, both consumers recover those three
fields exactly — but the cover image is never encoded, so Render-JSON
decodes it as absent and Render-Markdown does not decode it at all. -/
theorem c3_envelope_roundtrip (t p u c nowIso : List Char)
    (ht1 : '"' ∉ t) (ht2 : '=' ∉ t) (ht3 : '%' ∉ t)
    (hp1 : '"' ∉ p) (hp2 : '=' ∉ p)
    (hu1 : '"' ∉ u) (hu2 : '=' ∉ u)
    (hc : noOccB patCover c = true) :
    mdDecode (htmlContentOf t p u c) nowIso = some ⟨t, p, u⟩ ∧
    jsonDecode (htmlContentOf t p u c) nowIso = some ⟨t, p, some u, none⟩ := by
  have hT := extract_title_env t p u c ht1
  have hP := extract_pubdate_env t p u c ht1 ht2 hp1
  have hU := extract_url_env t p u c ht1 ht2 hp1 hp2 hu1
  have hC := extract_cover_env t p u c ht1 ht2 hp1 hp2 hu1 hu2 hc
  have hdec : decodeURIComp t = some t := decodeURIComp_no_pct ht3
  constructor
  · unfold mdDecode
    simp only [hT, hP, hU, hdec]
  · unfold jsonDecode
    simp only [hT, hP, hU, hC, hdec]

/-- Witness: the round-trip at concrete three-field metadata. -/
theorem c3_envelope_roundtrip_witness :
    mdDecode (htmlContentOf "Test Post 1".toList
        "Mon, 01 Jan 2024 00:00:00 GMT".toList "http://example.com/post1".toList
        "<p>Content of post 1</p>".toList) "2024".toList
      = some ⟨"Test Post 1".toList, "Mon, 01 Jan 2024 00:00:00 GMT".toList,
          "http://example.com/post1".toList⟩
    ∧ jsonDecode (htmlContentOf "Test Post 1".toList
        "Mon, 01 Jan 2024 00:00:00 GMT".toList "http://example.com/post1".toList
        "<p>Content of post 1</p>".toList) "2024".toList
      = some ⟨"Test Post 1".toList, "Mon, 01 Jan 2024 00:00:00 GMT".toList,
          some "http://example.com/post1".toList, none⟩ :=
  c3_envelope_roundtrip "Test Post 1".toList "Mon, 01 Jan 2024 00:00:00 GMT".toList
    "http://example.com/post1".toList "<p>Content of post 1</p>".toList "2024".toList
    (by decide) (by decide) (by decide) (by decide) (by decide) (by decide) (by decide)
    (by decide)

set_option maxRecDepth 4000 in
/-- C3 counterexample: for a metadata record whose cover image is
populated, the HTML produced by Ingest (which never emits a `data-cover`
attribute) decodes with an absent cover in Render-JSON, so `decode ∘
encode` does not recover the record exactly. -/
theorem c3_envelope_roundtrip_counterexample :
    jsonDecode (htmlContentOf "T".toList "D".toList "U".toList "<p>b</p>".toList)
        "2024".toList
      = some ⟨"T".toList, "D".toList, some "U".toList, none⟩
    ∧ (jsonDecode (htmlContentOf "T".toList "D".toList "U".toList "<p>b</p>".toList)
        "2024".toList).map JsonMeta.cover ≠ some (some "http://img".toList) := by
  refine ⟨by decide, ?_⟩
  intro h
  have h2 : (jsonDecode (htmlContentOf "T".toList "D".toList "U".toList
      "<p>b</p>".toList) "2024".toList).map JsonMeta.cover = some none := by decide
  rw [h2] at h
  have h3 := Option.some.inj h
  cases h3

end Veloren

namespace Veloren

/-! ### Event-triggered stage outcomes (Translate, Render-Markdown, Render-JSON)

`src/apps/batch-translator/src/index.ts` and the two renderers are modelled
as pure outcome functions. External effects are parameters: `dl` maps an
object path to its downloaded content (`none` = the download rejects), and
the external libraries `turndown`, `yaml.dump` and `slugify` are opaque
function arguments. An outcome records the paths downloaded, the
`(path, content)` pairs written, and whether the handler threw. -/

structure RenderOutcome where
  downloads : List (List Char)
  writes : List (List Char × List Char)
  threw : Bool
  deriving DecidableEq

structure TranslateRequest where
  inputUri : List Char
  sourceLang : List Char
  targetLangs : List (List Char)
  outputUriPfx : List Char
  deriving DecidableEq

structure TranslateOutcome where
  requests : List TranslateRequest
  threw : Bool
  deriving DecidableEq

/-- JS string interpolation of a possibly-undefined value. -/
def strOrUndef : Option (List Char) → List Char
  | some s => s
  | none => "undefined".toList

/-- `src/apps/batch-translator/src/index.ts` lines 6-43: the handler
destructures `bucket` and `name` from the event, builds the batch request
unconditionally (no bucket or name validation anywhere), and its `catch`
(lines 39-42) only logs, so an API failure (`apiFails`) never surfaces. -/
def batchTranslate (bucket nm : List Char) (outB : Option (List Char)) (now : Nat)
    (_apiFails : Bool) : TranslateOutcome :=
  { requests := [⟨"gs://".toList ++ bucket ++ '/' :: nm,
      "en".toList,
      ["es".toList, "pt-BR".toList],
      "gs://".toList ++ strOrUndef outB ++ '/' :: ((Nat.repr now).toList ++ "/".toList)⟩],
    threw := false }

/-- `fileMatch[1].replace('veloren-html-raw_raw-html_', '')`: a string
pattern replaces only the first occurrence. -/
def replaceFirst (pat s : List Char) : List Char :=
  match splitFirst pat s with
  | some pr => pr.1 ++ pr.2
  | none => s

def legacyPre : List Char := "veloren-html-raw_raw-html_".toList

/-- Literal head of `/<div style="display:none;"[^>]*>[\s\S]*?<\/div>/`. -/
def divPat : List Char := "<div style=\"display:none;\"".toList

/-- After the literal head: `[^>]*>` reaches exactly the first `>` (the
class cannot cross one), then the lazy `[\s\S]*?<\/div>` ends at the first
`</div>`. Returns the suffix after the match, or `none` if the tail cannot
complete the match at this start. -/
def tryCleanAt (post : List Char) : Option (List Char) :=
  match post.dropWhile (fun c => c ≠ '>') with
  | [] => none
  | _ :: r => (splitFirst "</div>".toList r).map (fun pr => pr.2)

/-- Leftmost start position whose full pattern match succeeds; returns the
text before the match and the text after it. -/
def cleanDivAux : List Char → Option (List Char × List Char)
  | [] => none
  | c :: cs =>
      if divPat.isPrefixOf (c :: cs) then
        match tryCleanAt ((c :: cs).drop divPat.length) with
        | some suf => some ([], suf)
        | none =>
            match cleanDivAux cs with
            | some pr => some (c :: pr.1, pr.2)
            | none => none
      else
        match cleanDivAux cs with
        | some pr => some (c :: pr.1, pr.2)
        | none => none

/-- `htmlString.replace(/<div style="display:none;"[^>]*>[\s\S]*?<\/div>/, '')`. -/
def cleanDiv (s : List Char) : List Char :=
  match cleanDivAux s with
  | some pr => pr.1 ++ pr.2
  | none => s

/-- Render-Markdown, first variant of `src/apps/html-to-markdown/src/index.ts`
(the one its test suite imports): missing event data, a foreign bucket and a
non-matching name all return silently before the `try`; inside the `try`,
download failure, a title `URIError` and a save rejection are swallowed by
the `catch` (lines 118-121), which only logs — the handler never throws. -/
def renderMd1 (envT : Option (List Char)) (fileData : Option (List Char × List Char))
    (dl : List Char → Option (List Char)) (td : List Char → List Char)
    (yd : List Char → List Char → List Char → List Char → List Char)
    (nowIso : List Char) (failPaths : List (List Char)) : RenderOutcome :=
  match fileData with
  | none => ⟨[], [], false⟩
  | some bn =>
      if envT = some bn.1 then
        match mdNameMatch bn.2 with
        | none => ⟨[], [], false⟩
        | some bl =>
            match dl bn.2 with
            | none => ⟨[bn.2], [], false⟩
            | some html =>
                match mdDecode html nowIso with
                | none => ⟨[bn.2], [], false⟩
                | some m =>
                    if bl.2 ++ '/' :: (replaceFirst legacyPre bl.1 ++ ".md".toList) ∈ failPaths
                    then ⟨[bn.2], [], false⟩
                    else ⟨[bn.2],
                      [(bl.2 ++ '/' :: (replaceFirst legacyPre bl.1 ++ ".md".toList),
                        "---\n".toList ++ yd m.title m.date m.sourceUrl bl.2
                          ++ "---\n\n".toList ++ td (cleanDiv html))], false⟩
      else ⟨[], [], false⟩

/-- `JSON.stringify({...})` separator: comma-joined members. -/
def sepComma : List (List Char) → List Char
  | [] => []
  | [x] => x
  | x :: y :: xs => x ++ ',' :: sepComma (y :: xs)

/-- `JSON.stringify` object members in insertion order; a property whose
value is `undefined` is omitted. -/
def jsonObjBody (fs : List (List Char × Option (List Char))) : List Char :=
  sepComma (fs.filterMap (fun kv => kv.2.map (fun v => jsonQuote kv.1 ++ ':' :: jsonQuote v)))

/-- The record saved by Render-JSON (src/unnamed/part_002 lines 82-90). -/
def jsonRecord (m : JsonMeta) (lang content slug : List Char) : List Char :=
  Char.ofNat 123 ::
    (jsonObjBody [("title".toList, some m.title), ("date".toList, some m.date),
      ("source_url".toList, m.sourceUrl), ("language".toList, some lang),
      ("content".toList, some content), ("cover".toList, m.cover),
      ("slug".toList, some (slug))]
      ++ [Char.ofNat 125])

/-- Render-JSON (src/unnamed/part_002): same routing guards as
Render-Markdown (silent return before the `try`), but the `catch`
(lines 96-98) rethrows, so download failure, a title `URIError` and a save
rejection all surface as a thrown error; `sl` models `slugify(·, lower)`. -/
def renderJson (envT : Option (List Char)) (fileData : Option (List Char × List Char))
    (dl : List Char → Option (List Char)) (sl : List Char → List Char)
    (nowIso : List Char) (now : Nat) (failPaths : List (List Char)) : RenderOutcome :=
  match fileData with
  | none => ⟨[], [], true⟩
  | some bn =>
      if envT = some bn.1 then
        match consumerMatch bn.2 with
        | none => ⟨[], [], false⟩
        | some bl =>
            match dl bn.2 with
            | none => ⟨[bn.2], [], true⟩
            | some html =>
                match jsonDecode html nowIso with
                | none => ⟨[bn.2], [], true⟩
                | some m =>
                    if bl.2 ++ '/' :: ((Nat.repr now).toList
                        ++ '/' :: (replaceFirst legacyPre bl.1 ++ ".json".toList)) ∈ failPaths
                    then ⟨[bn.2], [], true⟩
                    else ⟨[bn.2],
                      [(bl.2 ++ '/' :: ((Nat.repr now).toList
                          ++ '/' :: (replaceFirst legacyPre bl.1 ++ ".json".toList)),
                        jsonRecord m bl.2 (cleanDiv html) (sl m.title))], false⟩
      else ⟨[], [], false⟩

theorem renderMd1_never_throws (envT : Option (List Char))
    (fileData : Option (List Char × List Char)) (dl : List Char → Option (List Char))
    (td : List Char → List Char)
    (yd : List Char → List Char → List Char → List Char → List Char)
    (nowIso : List Char) (fp : List (List Char)) :
    (renderMd1 envT fileData dl td yd nowIso fp).threw = false := by
  unfold renderMd1
  repeat' split
  all_goals rfl

end Veloren

namespace Veloren

/-- C4 (amended): a routing mismatch is a silent non-fatal skip for the two
Render stages — on a foreign bucket or a non-matching object name they
perform no downloads and no writes and return successfully — but the
Translate handler performs no source validation at all: it issues the
batch-translation request for every trigger, whatever the bucket, and
still completes without failure. -/
theorem c4_routing_skip (envT outB : Option (List Char)) (b n : List Char)
    (dl : List Char → Option (List Char)) (td : List Char → List Char)
    (yd : List Char → List Char → List Char → List Char → List Char)
    (sl : List Char → List Char) (nowIso : List Char) (now : Nat)
    (fp : List (List Char)) (af : Bool)
    (h : envT ≠ some b ∨ mdNameMatch n = none)
    (h2 : envT ≠ some b ∨ consumerMatch n = none) :
    renderMd1 envT (some (b, n)) dl td yd nowIso fp = ⟨[], [], false⟩
    ∧ renderJson envT (some (b, n)) dl sl nowIso now fp = ⟨[], [], false⟩
    ∧ ((batchTranslate b n outB now af).requests ≠ []
       ∧ (batchTranslate b n outB now af).threw = false) := by
  refine ⟨?_, ?_, ?_, rfl⟩
  · simp only [renderMd1]
    rcases h with h | h
    · simp [h]
    · by_cases hb : envT = some b
      · simp [hb, h]
      · simp [hb]
  · simp only [renderJson]
    rcases h2 with h2 | h2
    · simp [h2]
    · by_cases hb : envT = some b
      · simp [hb, h2]
      · simp [hb]
  · simp [batchTranslate]

/-- Witness: a foreign bucket is skipped by both renderers yet still
translated. -/
theorem c4_routing_skip_witness :
    renderMd1 (some "thb".toList) (some ("other".toList, "x_es_translations.html".toList))
        (fun _ => none) (fun x => x) (fun t d u l => t ++ d ++ u ++ l) "t".toList []
      = ⟨[], [], false⟩
    ∧ renderJson (some "thb".toList) (some ("other".toList, "x_es_translations.html".toList))
        (fun _ => none) (fun x => x) "t".toList 0 []
      = ⟨[], [], false⟩
    ∧ ((batchTranslate "other".toList "x_es_translations.html".toList (some "o".toList) 0 false).requests ≠ []
       ∧ (batchTranslate "other".toList "x_es_translations.html".toList (some "o".toList) 0 false).threw = false) :=
  c4_routing_skip (some "thb".toList) (some "o".toList) "other".toList
    "x_es_translations.html".toList (fun _ => none) (fun x => x)
    (fun t d u l => t ++ d ++ u ++ l) (fun x => x) "t".toList 0 [] false
    (Or.inl (by decide)) (Or.inl (by decide))

/-- C4 counterexample: Translate invoked for an object in a bucket that is
not the raw-HTML area still issues the full batch-translation request and
completes successfully — it does not validate its trigger source. -/
theorem c4_routing_skip_counterexample :
    (batchTranslate "attacker-bucket".toList "not-raw.html".toList (some "out".toList) 0 false).requests
      = [⟨"gs://attacker-bucket/not-raw.html".toList, "en".toList,
          ["es".toList, "pt-BR".toList], "gs://out/0/".toList⟩]
    ∧ (batchTranslate "attacker-bucket".toList "not-raw.html".toList (some "out".toList) 0 false).threw
      = false := by
  exact ⟨by decide, rfl⟩

end Veloren

namespace Veloren

/-- C5 (amended): only Render-JSON propagates fatal conditions. On a
matching route, whenever Render-JSON completes without writing (download
failure, title `URIError`, save rejection) it throws, signalling the
platform to retry; Render-Markdown never throws (its `catch` only logs),
and Translate never throws even when the translation API fails — those two
stages swallow every fatal condition into a silent success. -/
theorem c5_fatal_outcomes (envT outB : Option (List Char)) (b n b1 l1 b2 l2 : List Char)
    (dl : List Char → Option (List Char)) (td : List Char → List Char)
    (yd : List Char → List Char → List Char → List Char → List Char)
    (sl : List Char → List Char) (nowIso : List Char) (now : Nat)
    (fp : List (List Char))
    (hb : envT = some b)
    (hm : mdNameMatch n = some (b1, l1))
    (hj : consumerMatch n = some (b2, l2)) :
    ((renderJson envT (some (b, n)) dl sl nowIso now fp).writes = [] →
      (renderJson envT (some (b, n)) dl sl nowIso now fp).threw = true)
    ∧ (renderMd1 envT (some (b, n)) dl td yd nowIso fp).threw = false
    ∧ (batchTranslate b n outB now true).threw = false := by
  refine ⟨?_, renderMd1_never_throws envT (some (b, n)) dl td yd nowIso fp, rfl⟩
  intro hw
  rcases hdl : dl n with _ | html
  · simp [renderJson, hb, hj, hdl]
  · rcases hdec : jsonDecode html nowIso with _ | m
    · simp [renderJson, hb, hj, hdl, hdec]
    · simp only [renderJson, hb, hj, hdl, hdec] at hw ⊢
      simp at hw ⊢
      split at hw
      · rename_i hcond
        simp [hcond]
      · exact absurd hw (by simp)

/-- Witness: a failing download on a matching route makes Render-JSON
throw while Render-Markdown and Translate still succeed. -/
theorem c5_fatal_outcomes_witness :
    ((renderJson (some "thb".toList) (some ("thb".toList, "a_es_translations.html".toList))
        (fun _ => none) (fun x => x) "t".toList 0 []).writes = [] →
      (renderJson (some "thb".toList) (some ("thb".toList, "a_es_translations.html".toList))
        (fun _ => none) (fun x => x) "t".toList 0 []).threw = true)
    ∧ (renderMd1 (some "thb".toList) (some ("thb".toList, "a_es_translations.html".toList))
        (fun _ => none) (fun x => x) (fun t d u l => t ++ d ++ u ++ l) "t".toList []).threw = false
    ∧ (batchTranslate "thb".toList "a_es_translations.html".toList (some "o".toList) 0 true).threw = false :=
  c5_fatal_outcomes (some "thb".toList) (some "o".toList) "thb".toList
    "a_es_translations.html".toList "a".toList "es".toList "a".toList "es".toList
    (fun _ => none) (fun x => x) (fun t d u l => t ++ d ++ u ++ l) (fun x => x)
    "t".toList 0 [] rfl (by decide) (by decide)

/-- C5 counterexample: Render-Markdown with a matching route and a failing
download completes without throwing (the fatal condition is swallowed), and
Translate completes without throwing even when the translation API fails. -/
theorem c5_fatal_outcomes_counterexample :
    renderMd1 (some "thb".toList) (some ("thb".toList, "a_es_translations.html".toList))
        (fun _ => none) (fun x => x) (fun t d u l => t ++ d ++ u ++ l) "t".toList []
      = ⟨["a_es_translations.html".toList], [], false⟩
    ∧ (batchTranslate "thb".toList "a.html".toList (some "o".toList) 0 true).threw = false := by
  exact ⟨by decide, rfl⟩

end Veloren
